import Mathlib

/-!
Verification of the Company-Research-Tool core (src/app.py, src/backend.py,
src/models.py) against its natural-language specification.

The Python code is shallowly embedded: Python strings are `List Char`
(written `Str`), `None`-able values are `Option`, the SQL store is an
explicit `Store` structure holding the `company` and `employee` tables as
lists, and every embedded function mirrors the control flow of the named
Python function.  Unicode-dependent Python primitives (`str.lower`,
`str.casefold`, `str.strip`, `\s`) are modelled on their ASCII fragment,
on which they all agree with the definitions below.
-/

namespace CompanyResearch

abbrev Str := List Char

/-- ASCII whitespace — space, tab, newline, carriage return, vertical tab,
form feed — the common core of Python's `str.strip` set and `\s`. -/
def isWsChar (c : Char) : Bool :=
  c.toNat = 32 || c.toNat = 9 || c.toNat = 10 || c.toNat = 13 || c.toNat = 11 || c.toNat = 12

/-- Python `str.lower` on its ASCII fragment. -/
def lowerChar (c : Char) : Char :=
  if 65 ≤ c.toNat ∧ c.toNat ≤ 90 then Char.ofNat (c.toNat + 32) else c

/-- Python `str.lower` over a whole string. -/
def lowerStr (s : Str) : Str := s.map lowerChar

/-- Leading-whitespace removal. -/
def dropWsL (s : Str) : Str := s.dropWhile isWsChar

/-- Trailing-whitespace removal. -/
def dropWsR (s : Str) : Str := (s.reverse.dropWhile isWsChar).reverse

/-- Python `str.strip()`. -/
def trimWs (s : Str) : Str := dropWsR (dropWsL s)

theorem lengthDropWhileLe (p : α → Bool) (l : List α) :
    (l.dropWhile p).length ≤ l.length :=
  (List.dropWhile_sublist p).length_le

/-- Python `str.split()` with no arguments, fuel-indexed: split on whitespace
runs, dropping empty fields.  Every step consumes at least one character, so
`length + 1` fuel always suffices. -/
def splitWsF : Nat → Str → List Str
  | 0, _ => []
  | fuel + 1, s =>
    match dropWsL s with
    | [] => []
    | c :: rest =>
      (c :: rest.takeWhile (fun d => !isWsChar d)) ::
        splitWsF fuel (rest.dropWhile (fun d => !isWsChar d))

/-- Python `str.split()` with no arguments. -/
def splitWs (s : Str) : List Str := splitWsF (s.length + 1) s

/-- Python `" ".join(words)`. -/
def joinWords : List Str → Str
  | [] => []
  | [w] => w
  | w :: v :: rest => w ++ ' ' :: joinWords (v :: rest)

/-- app.py `normalize_name`: collapse internal whitespace, trim, and
case-fold (Python `casefold` agrees with `lower` on ASCII, the modelled
fragment). -/
def normalizeName (s : Str) : Str :=
  if s = [] then [] else lowerStr (trimWs (joinWords (splitWs s)))

/-- Python truthiness of an optional string (`None` and `""` are falsy). -/
def truthy (o : Option Str) : Bool :=
  match o with
  | some s => s ≠ []
  | none => false

/-- Python `x or d` for an optional string `x` and a string default `d`. -/
def pyOr (o : Option Str) (d : Str) : Str := if truthy o then o.getD [] else d

/-- A Python value as found in a parsed-JSON field that the code feeds to
`int(...)`: absent/None, a string, or an integer. -/
inductive PyVal where
  | vNone : PyVal
  | vStr : Str → PyVal
  | vInt : Int → PyVal
deriving DecidableEq

def digitVal (c : Char) : Option Nat :=
  if 48 ≤ c.toNat ∧ c.toNat ≤ 57 then some (c.toNat - 48) else none

/-- Digit run with Python's single-underscore-between-digits rule. -/
def digitsU (acc : Nat) : Str → Option Nat
  | [] => some acc
  | c :: rest =>
    match digitVal c with
    | some d => digitsU (10 * acc + d) rest
    | none =>
      if c = '_' then
        match rest with
        | d :: rest' =>
          match digitVal d with
          | some dv => digitsU (10 * acc + dv) rest'
          | none => none
        | [] => none
      else none

def parseIntDigits : Str → Option Nat
  | [] => none
  | c :: rest =>
    match digitVal c with
    | some d => digitsU d rest
    | none => none

/-- Python `int(s)` on a string: optional surrounding whitespace, optional
sign, decimal digits (ASCII fragment). `none` models the `ValueError`. -/
def strToInt (s : Str) : Option Int :=
  match trimWs s with
  | '+' :: rest => (parseIntDigits rest).map (fun n => (n : Int))
  | '-' :: rest => (parseIntDigits rest).map (fun n => -(n : Int))
  | t => (parseIntDigits t).map (fun n => (n : Int))

/-- app.py `_parse_employee_size`: `None`/empty give `None`; otherwise
`int(value)` with the exception swallowed into `None`. -/
def parseEmployeeSize (v : PyVal) : Option Int :=
  match v with
  | PyVal.vNone => none
  | PyVal.vStr s => if s = [] then none else strToInt s
  | PyVal.vInt n => some n

/-- The Python guard `value not in (None, "")` used in `_update_company`. -/
def sizePresent (v : PyVal) : Bool :=
  match v with
  | PyVal.vNone => false
  | PyVal.vStr s => s ≠ []
  | PyVal.vInt _ => true

/-- The literal placeholder string stored by the code for unknown fields. -/
def notFound : Str := ("Not found").toList

def unknownName : Str := ("Unknown").toList

/-- models.py `Company` row. `name_normalized` is `Option` because legacy
rows created without a query string may lack it. -/
structure Company where
  id : Nat
  name : Str
  name_normalized : Option Str
  industry : Option Str
  employee_size : Option Int
  domain : Option Str
  email : Option Str
deriving DecidableEq

/-- models.py `Employee` row. -/
structure EmployeeRow where
  id : Nat
  full_name : Str
  title : Option Str
  department : Option Str
  seniority : Option Str
  profile_url : Option Str
  email : Option Str
  company_id : Nat
deriving DecidableEq

/-- The persisted store: the two tables plus primary-key counters. -/
structure Store where
  companies : List Company
  employees : List EmployeeRow
  nextCompanyId : Nat
  nextEmployeeId : Nat
deriving DecidableEq

def emptyStore : Store :=
  { companies := [], employees := [], nextCompanyId := 0, nextEmployeeId := 0 }

/-- The `company` object of a parsed enrichment response. -/
structure CompanyData where
  name : Option Str
  industry : Option Str
  employee_size : PyVal
  domain : Option Str
  email : Option Str
deriving DecidableEq

/-- One entry of the `employees` array of a parsed enrichment response. -/
structure EmpData where
  full_name : Option Str
  title : Option Str
  department : Option Str
  seniority : Option Str
  profile_url : Option Str
  email : Option Str
deriving DecidableEq

/-- A whole parsed enrichment response. -/
structure ParsedData where
  company : CompanyData
  employees : List EmpData
deriving DecidableEq

/-- First element satisfying `p` (SQLAlchemy `.first()` on a filtered select). -/
def findP (p : α → Prop) [DecidablePred p] : List α → Option α
  | [] => none
  | a :: l => if p a then some a else findP p l

/-- Index of the first element satisfying `p`. -/
def findIdxP (p : α → Prop) [DecidablePred p] : List α → Option Nat
  | [] => none
  | a :: l => if p a then some 0 else (findIdxP p l).map (· + 1)

/-- In-place row update at an index (the ORM mutates the fetched row). -/
def updAt (f : α → α) : List α → Nat → List α
  | [], _ => []
  | a :: l, 0 => f a :: l
  | a :: l, n + 1 => a :: updAt f l n

def defaultCompany : Company :=
  { id := 0, name := [], name_normalized := none, industry := none,
    employee_size := none, domain := none, email := none }

def getAt (l : List α) (i : Nat) (dflt : α) : α := (l.get? i).getD dflt

/-- app.py `get_company_by_name`: empty input short-circuits; then the
normalized-key lookup against `strip().lower()` of the query, then the exact
raw-name lookup, then the lowercased-name lookup. -/
def getCompanyByName (s : Store) (raw : Str) : Option Company :=
  if raw = [] then none
  else
    let rawNorm := lowerStr (trimWs raw)
    match findP (fun c => c.name_normalized = some rawNorm) s.companies with
    | some c => some c
    | none =>
      match findP (fun c => c.name = raw) s.companies with
      | some c => some c
      | none => findP (fun c => lowerStr c.name = rawNorm) s.companies

/-- app.py enrichment trigger, company half: lines 477-479. -/
def needsEnrichment (c : Company) : Bool :=
  !truthy c.industry || !truthy c.domain || c.employee_size = none

/-- app.py enrichment trigger, employee half: lines 480-486. -/
def hasEmployees (s : Store) (companyId : Nat) : Bool :=
  (findP (fun r => r.company_id = companyId) s.employees).isSome

/-- The complete cache decision `needs_enrichment or not has_employees`. -/
def enrichmentTriggered (s : Store) (c : Company) : Bool :=
  needsEnrichment c || !hasEmployees s c.id

/-- app.py `_update_employee`: fill a field only when the parsed value is
truthy and the stored one is `None` or the placeholder text. -/
def updateEmployee (e : EmployeeRow) (d : EmpData) : EmployeeRow :=
  { e with
    title :=
      if truthy d.title ∧ (e.title = none ∨ e.title = some notFound) then d.title else e.title,
    department :=
      if truthy d.department ∧ (e.department = none ∨ e.department = some notFound) then
        d.department else e.department,
    seniority :=
      if truthy d.seniority ∧ (e.seniority = none ∨ e.seniority = some notFound) then
        d.seniority else e.seniority,
    profile_url :=
      if truthy d.profile_url ∧ (e.profile_url = none ∨ e.profile_url = some notFound) then
        d.profile_url else e.profile_url,
    email :=
      if truthy d.email ∧ (e.email = none ∨ e.email = some notFound) then d.email else e.email }

/-- app.py `_upsert_employees` insert branch: placeholders for absent
fields, raw `email`. -/
def newEmployee (nid : Nat) (companyId : Nat) (fullName : Str) (d : EmpData) : EmployeeRow :=
  { id := nid, full_name := fullName,
    title := some (pyOr d.title notFound),
    department := some (pyOr d.department notFound),
    seniority := some (pyOr d.seniority notFound),
    profile_url := some (pyOr d.profile_url notFound),
    email := d.email,
    company_id := companyId }

/-- The trimmed `full_name` the loop works with: `(get("full_name") or "").strip()`. -/
def fullNameTrim (d : EmpData) : Str := trimWs (d.full_name.getD [])

/-- app.py `_upsert_employees` loop body, with the in-batch dedup set `seen`. -/
def upsertEmployeesGo (companyId : Nat) (seen : List Str) (s : Store) : List EmpData → Store
  | [] => s
  | d :: rest =>
    let nm := fullNameTrim d
    if nm = [] then upsertEmployeesGo companyId seen s rest
    else
      let key := normalizeName nm
      if key ∈ seen then upsertEmployeesGo companyId seen s rest
      else
        match findIdxP
            (fun r => r.company_id = companyId ∧ lowerStr r.full_name = lowerStr nm)
            s.employees with
        | some i =>
          upsertEmployeesGo companyId (key :: seen)
            { s with employees := updAt (fun r => updateEmployee r d) s.employees i } rest
        | none =>
          upsertEmployeesGo companyId (key :: seen)
            { s with
              employees := s.employees ++ [newEmployee s.nextEmployeeId companyId nm d],
              nextEmployeeId := s.nextEmployeeId + 1 } rest

/-- app.py `_upsert_employees` (one commit at its end). -/
def upsertEmployees (s : Store) (companyId : Nat) (emps : List EmpData) : Store :=
  upsertEmployeesGo companyId [] s emps

/-- app.py `_update_company` (commits on its own before employees run). -/
def updateCompany (c : Company) (cd : CompanyData) (ninput : Option Str) : Company :=
  { c with
    industry := if truthy cd.industry then cd.industry else c.industry,
    employee_size :=
      if sizePresent cd.employee_size then parseEmployeeSize cd.employee_size
      else c.employee_size,
    domain := if truthy cd.domain then cd.domain else c.domain,
    email := if truthy cd.email then cd.email else c.email,
    name_normalized := if truthy ninput then ninput else c.name_normalized }

/-- app.py `_create_company` field assembly (only reached with a truthy
normalized input; see `companyPhase`). -/
def createCompany (nid : Nat) (companyName : Str) (cd : CompanyData) (ninput : Option Str) :
    Company :=
  { id := nid, name := companyName, name_normalized := ninput,
    industry := cd.industry,
    employee_size := parseEmployeeSize cd.employee_size,
    domain := cd.domain, email := cd.email }

/-- app.py `_find_existing_company`: normalized key, then parsed name, then
lowercased display name. -/
def findExistingCompanyIdx (s : Store) (ninput : Option Str) (cd : CompanyData)
    (companyName : Str) : Option Nat :=
  match (if truthy ninput then findIdxP (fun c => c.name_normalized = ninput) s.companies
         else none) with
  | some i => some i
  | none =>
    match (if truthy cd.name then findIdxP (fun c => c.name = cd.name.getD []) s.companies
           else none) with
    | some i => some i
    | none => findIdxP (fun c => lowerStr c.name = lowerStr companyName) s.companies

/-- Company half of app.py `upsert_company_and_employees`; it ends in its own
`session.commit()` (inside `_update_company` / `_create_company`).  `none`
models the `IntegrityError` raised when a brand-new company would be inserted
with no `name_normalized` (the column is NOT NULL in models.py and
`_create_company` omits it when the normalized input is falsy). -/
def companyPhase (s : Store) (d : ParsedData) (raw : Str) : Option (Store × Company) :=
  let cd := d.company
  let companyName := pyOr cd.name (if raw = [] then unknownName else raw)
  let ninput : Option Str := if raw = [] then none else some (lowerStr (trimWs raw))
  match findExistingCompanyIdx s ninput cd companyName with
  | some i =>
    let c' := updateCompany (getAt s.companies i defaultCompany) cd ninput
    some ({ s with companies := updAt (fun _ => c') s.companies i }, c')
  | none =>
    if truthy ninput then
      let c := createCompany s.nextCompanyId companyName cd ninput
      some ({ s with companies := s.companies ++ [c],
                     nextCompanyId := s.nextCompanyId + 1 }, c)
    else none

/-- app.py `upsert_company_and_employees`: the company phase commits first,
then the employee phase commits separately. -/
def upsertCompanyAndEmployees (s : Store) (d : ParsedData) (raw : Str) :
    Option (Store × Company) :=
  match companyPhase s d raw with
  | some (s1, c) => some (upsertEmployees s1 c.id d.employees, c)
  | none => none

/-! Response parser: `strip_code_fences`, `safe_json_parse`, and the
line-oriented heuristic extractor. -/

def tick : Char := Char.ofNat 96

def isTick (c : Char) : Bool := c = tick

def ticks3 : Str := [tick, tick, tick]

/-- Case-insensitive literal prefix test (`p` given in lowercase). -/
def startsCI (p : Str) (cs : Str) : Bool := lowerStr (cs.take p.length) = p

def jsonTagL : Str := ("json").toList
def jsTagL : Str := ("js").toList
def txtTagL : Str := ("txt").toList

/-- The optional language tag of the first `strip_code_fences` regex,
`(?:json|js|txt)?` with `re.IGNORECASE`; regex alternation takes the first
alternative that matches. -/
def dropTag (cs : Str) : Str :=
  if startsCI jsonTagL cs then cs.drop 4
  else if startsCI jsTagL cs then cs.drop 2
  else if startsCI txtTagL cs then cs.drop 3
  else cs

theorem dropTag_length_le (cs : Str) : (dropTag cs).length ≤ cs.length := by
  unfold dropTag
  repeat' split
  all_goals simp [List.length_drop]

/-- One pass of the first substitution of `strip_code_fences`, fuel-indexed
(`re.sub` removes every backtick-triple together with its optional language
tag and the following whitespace run, scanning left to right).  Every step
consumes at least one character, so `length + 1` fuel always suffices. -/
def scanFenceF : Nat → Str → Str
  | 0, _ => []
  | fuel + 1, cs =>
    match cs with
    | c1 :: c2 :: c3 :: rest =>
      if isTick c1 && isTick c2 && isTick c3 then
        scanFenceF fuel (dropWsL (dropTag rest))
      else c1 :: scanFenceF fuel (c2 :: c3 :: rest)
    | [c, c2] => c :: scanFenceF fuel [c2]
    | [c] => [c]
    | [] => []

/-- The first substitution of `strip_code_fences`. -/
def scanFence (cs : Str) : Str := scanFenceF (cs.length + 1) cs

theorem scanFenceF_congr :
    ∀ f1 : Nat, ∀ f2 : Nat, ∀ cs : Str, cs.length < f1 → cs.length < f2 →
      scanFenceF f1 cs = scanFenceF f2 cs := by
  intro f1
  induction f1 with
  | zero => intro f2 cs h1 _; exact absurd h1 (by omega)
  | succ n ih =>
    intro f2 cs h1 h2
    cases f2 with
    | zero => exact absurd h2 (by omega)
    | succ m =>
      match cs with
      | [] => rfl
      | [c] => rfl
      | [c, c2] =>
        simp only [scanFenceF, List.cons.injEq, true_and]
        apply ih
        · simp only [List.length_cons, List.length_nil] at h1 ⊢
          omega
        · simp only [List.length_cons, List.length_nil] at h2 ⊢
          omega
      | c1 :: c2 :: c3 :: rest =>
        have hd : (dropWsL (dropTag rest)).length ≤ rest.length := by
          have ha := lengthDropWhileLe isWsChar (dropTag rest)
          have hb := dropTag_length_le rest
          simp only [dropWsL] at *
          omega
        simp only [List.length_cons] at h1 h2
        simp only [scanFenceF]
        split
        · apply ih <;> omega
        · simp only [List.cons.injEq, true_and]
          apply ih <;> simp only [List.length_cons] <;> omega

/-- Head shape on which the fence-scan removes a backtick-triple. -/
def tripleHead : Str → Prop
  | a :: b :: c :: _ => isTick a = true ∧ isTick b = true ∧ isTick c = true
  | _ => False

instance : DecidablePred tripleHead := fun cs =>
  match cs with
  | a :: b :: c :: _ => inferInstanceAs (Decidable (_ ∧ _ ∧ _))
  | [] => inferInstanceAs (Decidable False)
  | [_] => inferInstanceAs (Decidable False)
  | [_, _] => inferInstanceAs (Decidable False)

theorem scanFenceF_step_triple (fuel : Nat) (c1 c2 c3 : Char) (rest : Str)
    (h1 : isTick c1 = true) (h2 : isTick c2 = true) (h3 : isTick c3 = true) :
    scanFenceF (fuel + 1) (c1 :: c2 :: c3 :: rest) = scanFenceF fuel (dropWsL (dropTag rest)) := by
  simp [scanFenceF, h1, h2, h3]

theorem scanFenceF_step_cons (fuel : Nat) (c : Char) (cs : Str) (h : ¬ tripleHead (c :: cs)) :
    scanFenceF (fuel + 1) (c :: cs) = c :: scanFenceF fuel cs := by
  match cs with
  | [] => cases fuel <;> rfl
  | [c2] => rfl
  | c2 :: c3 :: r =>
    have hb : (isTick c && isTick c2 && isTick c3) = false := by
      by_contra hcon
      simp only [Bool.not_eq_false, Bool.and_eq_true] at hcon
      exact h ⟨hcon.1.1, hcon.1.2, hcon.2⟩
    simp [scanFenceF, hb]

theorem dropWsDropTagLe (rest : Str) : (dropWsL (dropTag rest)).length ≤ rest.length := by
  have ha := lengthDropWhileLe isWsChar (dropTag rest)
  have hb := dropTag_length_le rest
  simp only [dropWsL] at *
  omega

theorem scanFence_nil : scanFence [] = [] := rfl

theorem scanFence_triple (c1 c2 c3 : Char) (rest : Str)
    (h1 : isTick c1 = true) (h2 : isTick c2 = true) (h3 : isTick c3 = true) :
    scanFence (c1 :: c2 :: c3 :: rest) = scanFence (dropWsL (dropTag rest)) := by
  have hd := dropWsDropTagLe rest
  show scanFenceF (rest.length + 3 + 1) (c1 :: c2 :: c3 :: rest) = _
  rw [scanFenceF_step_triple _ _ _ _ _ h1 h2 h3]
  exact scanFenceF_congr _ _ _ (by omega) (by omega)

theorem scanFence_cons (c : Char) (cs : Str) (h : ¬ tripleHead (c :: cs)) :
    scanFence (c :: cs) = c :: scanFence cs := by
  show scanFenceF (cs.length + 1 + 1) (c :: cs) = _
  rw [scanFenceF_step_cons _ _ _ h]
  rfl

/-- The second substitution of `strip_code_fences`, `re.sub` of a final
backtick-triple preceded by optional whitespace; Python `$` also matches
just before one terminal newline. -/
def subTrailingFence (cs : Str) : Str :=
  if cs.reverse.take 3 = ticks3 then dropWsR (cs.take (cs.length - 3))
  else if cs.reverse.take 4 = '\n' :: ticks3 then dropWsR (cs.take (cs.length - 4)) ++ ['\n']
  else cs

/-- app.py `strip_code_fences`. -/
def stripCodeFences (cs : Str) : Str :=
  if cs = [] then cs else trimWs (subTrailingFence (scanFence cs))

/-- JSON values; numeric lexemes are kept verbatim (the embedding does not
model floating point, and two parses of the same text agree lexeme-wise). -/
inductive Json where
  | jnull : Json
  | jbool : Bool → Json
  | jnum : Str → Json
  | jstr : Str → Json
  | jarr : List Json → Json
  | jobj : List (Str × Json) → Json

/-- The whitespace accepted by Python `json.loads` between tokens. -/
def isJsonWs (c : Char) : Bool := c = ' ' || c = '\t' || c = '\n' || c = '\r'

def skipJWs (cs : Str) : Str := cs.dropWhile isJsonWs

def hexVal (c : Char) : Option Nat :=
  if 48 ≤ c.toNat ∧ c.toNat ≤ 57 then some (c.toNat - 48)
  else if 97 ≤ c.toNat ∧ c.toNat ≤ 102 then some (c.toNat - 87)
  else if 65 ≤ c.toNat ∧ c.toNat ≤ 70 then some (c.toNat - 55)
  else none

def escChar (e : Char) : Option Char :=
  if e = Char.ofNat 34 then some (Char.ofNat 34)
  else if e = Char.ofNat 92 then some (Char.ofNat 92)
  else if e = '/' then some '/'
  else if e = 'b' then some (Char.ofNat 8)
  else if e = 'f' then some (Char.ofNat 12)
  else if e = 'n' then some '\n'
  else if e = 'r' then some '\r'
  else if e = 't' then some '\t'
  else none

/-- JSON string body after the opening quote, fuel-indexed; returns content
and rest.  Surrogate pairing of `\uXXXX` escapes is not modelled (the code
point is taken as-is), which does not affect acceptance. -/
def parseJStringF : Nat → Str → Option (Str × Str)
  | 0, _ => none
  | fuel + 1, cs =>
    match cs with
    | [] => none
    | c :: rest =>
      if c = Char.ofNat 34 then some ([], rest)
      else if c = Char.ofNat 92 then
        match rest with
        | 'u' :: h1 :: h2 :: h3 :: h4 :: rest' =>
          match hexVal h1, hexVal h2, hexVal h3, hexVal h4 with
          | some a, some b, some d, some e =>
            (parseJStringF fuel rest').map
              (fun pr => (Char.ofNat (((a * 16 + b) * 16 + d) * 16 + e) :: pr.1, pr.2))
          | _, _, _, _ => none
        | e :: rest' =>
          match escChar e with
          | some ch => (parseJStringF fuel rest').map (fun pr => (ch :: pr.1, pr.2))
          | none => none
        | [] => none
      else if c.toNat < 32 then none
      else (parseJStringF fuel rest).map (fun pr => (c :: pr.1, pr.2))

def parseJString (cs : Str) : Option (Str × Str) := parseJStringF (cs.length + 1) cs

def isDigitC (c : Char) : Bool := 48 ≤ c.toNat && c.toNat ≤ 57

/-- JSON number lexeme: `-?(0|[1-9][0-9]*)(\.[0-9]+)?([eE][-+]?[0-9]+)?`. -/
def parseJNumber (cs : Str) : Option (Str × Str) :=
  let sign : Str × Str := match cs with
    | '-' :: r => (['-'], r)
    | _ => ([], cs)
  match sign.2 with
  | [] => none
  | c :: rest =>
    if !isDigitC c then none
    else
      let ipart : Str × Str :=
        if c = '0' then ([c], rest)
        else (c :: rest.takeWhile isDigitC, rest.dropWhile isDigitC)
      let fpart : Str × Str :=
        match ipart.2 with
        | '.' :: r2 =>
          let ds := r2.takeWhile isDigitC
          if ds = [] then ([], ipart.2) else ('.' :: ds, r2.dropWhile isDigitC)
        | _ => ([], ipart.2)
      let fbad : Bool := match ipart.2 with
        | '.' :: r2 => r2.takeWhile isDigitC = []
        | _ => false
      if fbad then none
      else
        let epart : Str × Str :=
          match fpart.2 with
          | e :: r3 =>
            if e = 'e' || e = 'E' then
              match r3 with
              | s :: r4 =>
                if s = '+' || s = '-' then
                  let ds := r4.takeWhile isDigitC
                  if ds = [] then ([], fpart.2) else (e :: s :: ds, r4.dropWhile isDigitC)
                else
                  let ds := r3.takeWhile isDigitC
                  if ds = [] then ([], fpart.2) else (e :: ds, r3.dropWhile isDigitC)
              | [] => ([], fpart.2)
            else ([], fpart.2)
          | [] => ([], fpart.2)
        some (sign.1 ++ ipart.1 ++ fpart.1 ++ epart.1, epart.2)

mutual

/-- `json.loads` value scanner (fuel-indexed; the nesting work is bounded by
the input length). -/
def parseJValue : Nat → Str → Option (Json × Str)
  | 0, _ => none
  | fuel + 1, cs =>
    match cs with
    | 'n' :: 'u' :: 'l' :: 'l' :: r => some (Json.jnull, r)
    | 't' :: 'r' :: 'u' :: 'e' :: r => some (Json.jbool true, r)
    | 'f' :: 'a' :: 'l' :: 's' :: 'e' :: r => some (Json.jbool false, r)
    | 'N' :: 'a' :: 'N' :: r => some (Json.jnum (('N' :: "aN".toList)), r)
    | 'I' :: 'n' :: 'f' :: 'i' :: 'n' :: 'i' :: 't' :: 'y' :: r =>
      some (Json.jnum ('I' :: ("nfinity").toList), r)
    | '-' :: 'I' :: 'n' :: 'f' :: 'i' :: 'n' :: 'i' :: 't' :: 'y' :: r =>
      some (Json.jnum ('-' :: 'I' :: ("nfinity").toList), r)
    | '{' :: r =>
      (match skipJWs r with
       | '}' :: r2 => some (Json.jobj [], r2)
       | r2 => (parseJMembers fuel r2).map (fun pr => (Json.jobj pr.1, pr.2)))
    | '[' :: r =>
      (match skipJWs r with
       | ']' :: r2 => some (Json.jarr [], r2)
       | r2 => (parseJElems fuel r2).map (fun pr => (Json.jarr pr.1, pr.2)))
    | c :: r =>
      if c = Char.ofNat 34 then (parseJString r).map (fun pr => (Json.jstr pr.1, pr.2))
      else (parseJNumber cs).map (fun pr => (Json.jnum pr.1, pr.2))
    | [] => none

/-- Object members, positioned at a key's opening quote. -/
def parseJMembers : Nat → Str → Option (List (Str × Json) × Str)
  | 0, _ => none
  | fuel + 1, cs =>
    match cs with
    | c :: r =>
      if c = Char.ofNat 34 then
        match parseJString r with
        | none => none
        | some (k, r2) =>
          match skipJWs r2 with
          | ':' :: r3 =>
            match parseJValue fuel (skipJWs r3) with
            | none => none
            | some (v, r4) =>
              match skipJWs r4 with
              | ',' :: r5 =>
                (parseJMembers fuel (skipJWs r5)).map (fun pr => ((k, v) :: pr.1, pr.2))
              | '}' :: r5 => some ([(k, v)], r5)
              | _ => none
          | _ => none
      else none
    | [] => none

/-- Array elements, positioned at a value. -/
def parseJElems : Nat → Str → Option (List Json × Str)
  | 0, _ => none
  | fuel + 1, cs =>
    match parseJValue fuel cs with
    | none => none
    | some (v, r) =>
      match skipJWs r with
      | ',' :: r2 => (parseJElems fuel (skipJWs r2)).map (fun pr => (v :: pr.1, pr.2))
      | ']' :: r2 => some ([v], r2)
      | _ => none

end

/-- Python `json.loads`: value with surrounding whitespace, whole input. -/
def jsonLoads (cs : Str) : Option Json :=
  match parseJValue (cs.length + 1) (skipJWs cs) with
  | some (v, rest) => if skipJWs rest = [] then some v else none
  | none => none

def isJObj : Json → Bool
  | Json.jobj _ => true
  | _ => false

/-- Stage 1 of `safe_json_parse`: direct parse of the fence-stripped text,
accepted only when the top-level value is an object. -/
def stage1Parse (u : Str) : Option (List (Str × Json)) :=
  match jsonLoads u with
  | some (Json.jobj m) => some m
  | _ => none

/-- The trailing-comma repair `re.sub(",\s*CLOSE", "CLOSE", _)`,
fuel-indexed. -/
def fixTrailingF (close : Char) : Nat → Str → Str
  | 0, cs => cs
  | fuel + 1, cs =>
    match cs with
    | [] => []
    | c :: rest =>
      if c = ',' then
        match rest.dropWhile isWsChar with
        | d :: r3 =>
          if d = close then close :: fixTrailingF close fuel r3
          else c :: fixTrailingF close fuel rest
        | [] => c :: fixTrailingF close fuel rest
      else c :: fixTrailingF close fuel rest

def fixTrailing (close : Char) (cs : Str) : Str := fixTrailingF close (cs.length + 1) cs

/-- Both repairs of app.py lines 172-173, in source order. -/
def fixCommas (cs : Str) : Str := fixTrailing ']' (fixTrailing '}' cs)

/-- Stage 2 of `safe_json_parse`: brace-depth scan, candidate parse,
trailing-comma repair retry (app.py lines 158-180). -/
def braceLoop : Str → Int → Str → Option (List (Str × Json))
  | [], _, _ => none
  | c :: rest, depth, acc =>
    if c = '{' then braceLoop rest (depth + 1) (c :: acc)
    else if c = '}' then
      if depth - 1 = 0 then
        let candidate := (c :: acc).reverse
        match jsonLoads candidate with
        | some (Json.jobj m) => some m
        | some _ => braceLoop rest (depth - 1) (c :: acc)
        | none =>
          match jsonLoads (fixCommas candidate) with
          | some (Json.jobj m) => some m
          | some _ => braceLoop rest (depth - 1) (c :: acc)
          | none => none
      else braceLoop rest (depth - 1) (c :: acc)
    else braceLoop rest depth (c :: acc)

/-- Find the first brace and run the depth scan. -/
def stage2Parse (u : Str) : Option (List (Str × Json)) :=
  match u.dropWhile (fun c => !(c = '{')) with
  | [] => none
  | cs => braceLoop cs 0 []

/-- app.py `safe_json_parse`. -/
def safeJsonParse (t : Str) : Option (List (Str × Json)) :=
  if t = [] then none
  else
    let u := stripCodeFences t
    match stage1Parse u with
    | some m => some m
    | none => stage2Parse u

/-- Wrap a payload in markdown code fences with the given language tag. -/
def fenceWrap (tag : Str) (j : Str) : Str :=
  ticks3 ++ tag ++ ('\n' :: (j ++ ('\n' :: ticks3)))

/-- The language tags (case-insensitively) that `strip_code_fences` knows,
plus the tagless fence. -/
def recognizedTag (tag : Str) : Prop :=
  lowerStr tag = jsonTagL ∨ lowerStr tag = jsTagL ∨ lowerStr tag = txtTagL ∨ tag = []

/-- One delimiter alternative `\s*D\s*` of the line-splitting pattern. -/
def matchAround (d : Char) (cs : Str) : Option Str :=
  match cs.dropWhile isWsChar with
  | c :: rest => if c = d then some (rest.dropWhile isWsChar) else none
  | [] => none

/-- The delimiter regex of `parse_employee_list_from_text`
(pipe, hyphen, semicolon — each with optional surrounding whitespace —
a tab, or two-plus whitespace), alternatives tried in order. -/
def matchDelim (cs : Str) : Option Str :=
  match matchAround '|' cs with
  | some r => some r
  | none =>
    match matchAround '-' cs with
    | some r => some r
    | none =>
      match matchAround ';' cs with
      | some r => some r
      | none =>
        match cs with
        | c :: rest =>
          if c = '\t' then some rest
          else if 2 ≤ ((c :: rest).takeWhile isWsChar).length then
            some ((c :: rest).dropWhile isWsChar)
          else none
        | [] => none

theorem takeDropWhileLen (p : α → Bool) (l : List α) :
    (l.takeWhile p).length + (l.dropWhile p).length = l.length := by
  conv_rhs => rw [← List.takeWhile_append_dropWhile (p := p) (l := l)]
  rw [List.length_append]

theorem matchAround_lt (d : Char) (cs r : Str) (h : matchAround d cs = some r) :
    r.length < cs.length := by
  unfold matchAround at h
  rcases h2 : cs.dropWhile isWsChar with _ | ⟨c, rest⟩ <;> rw [h2] at h <;> dsimp only at h
  · exact absurd h (by simp)
  · by_cases hc : c = d
    · rw [if_pos hc] at h
      have h4 : (rest.dropWhile isWsChar).length ≤ rest.length := lengthDropWhileLe _ _
      have h0 : (c :: rest).length ≤ cs.length := by
        rw [← h2]
        exact lengthDropWhileLe _ _
      simp only [Option.some.injEq] at h
      subst h
      simp only [List.length_cons] at h0
      omega
    · rw [if_neg hc] at h
      exact absurd h (by simp)

theorem matchDelim_lt (cs r : Str) (h : matchDelim cs = some r) : r.length < cs.length := by
  unfold matchDelim at h
  rcases h1 : matchAround '|' cs with _ | r1 <;> rw [h1] at h
  case _ =>
    rcases h2 : matchAround '-' cs with _ | r2 <;> rw [h2] at h
    case _ =>
      rcases h3 : matchAround ';' cs with _ | r3 <;> rw [h3] at h
      case _ =>
        rcases cs with _ | ⟨c, rest⟩
        · exact absurd h (by simp)
        · simp only at h
          by_cases ht : c = '\t'
          · rw [if_pos ht] at h
            simp only [Option.some.injEq] at h
            subst h
            simp
          · rw [if_neg ht] at h
            split at h
            · next hlen =>
              simp only [Option.some.injEq] at h
              subst h
              have hsum := takeDropWhileLen isWsChar (c :: rest)
              omega
            · exact absurd h (by simp)
      case _ =>
        simp only [Option.some.injEq] at h
        subst h
        exact matchAround_lt _ _ _ h3
    case _ =>
      simp only [Option.some.injEq] at h
      subst h
      exact matchAround_lt _ _ _ h2
  case _ =>
    simp only [Option.some.injEq] at h
    subst h
    exact matchAround_lt _ _ _ h1

/-- `re.split` on the delimiter pattern, fuel-indexed: cut at every match.
Every step consumes at least one character (`matchDelim_lt`), so
`length + 1` fuel always suffices. -/
def splitDelimF : Nat → Str → Str → List Str
  | 0, _, cur => [cur.reverse]
  | fuel + 1, cs, cur =>
    match cs with
    | [] => [cur.reverse]
    | c :: rest =>
      match matchDelim (c :: rest) with
      | some r => cur.reverse :: splitDelimF fuel r []
      | none => splitDelimF fuel rest (c :: cur)

def splitLine (line : Str) : List Str := splitDelimF (line.length + 1) line []

def isAsciiAlphaNum (c : Char) : Bool :=
  (65 ≤ c.toNat && c.toNat ≤ 90) || (97 ≤ c.toNat && c.toNat ≤ 122) ||
    (48 ≤ c.toNat && c.toNat ≤ 57)

def emailLocalChar (c : Char) : Bool :=
  isAsciiAlphaNum c || c = '.' || c = '-' || c = '_' || c = '+'

def emailDomChar (c : Char) : Bool := isAsciiAlphaNum c || c = '-' || c = '_'

def emailTailChar (c : Char) : Bool :=
  isAsciiAlphaNum c || c = '.' || c = '-' || c = '_'

/-- The email pattern anchored at the current position (all character
classes exclude the required separators, so greedy matching is
deterministic). -/
def emailHere (cs : Str) : Option Str :=
  let loc := cs.takeWhile emailLocalChar
  let r1 := cs.dropWhile emailLocalChar
  if loc = [] then none
  else
    match r1 with
    | '@' :: r2 =>
      let dom := r2.takeWhile emailDomChar
      let r3 := r2.dropWhile emailDomChar
      if dom = [] then none
      else
        match r3 with
        | '.' :: r4 =>
          let tl := r4.takeWhile emailTailChar
          if tl = [] then none else some (loc ++ '@' :: (dom ++ '.' :: tl))
        | _ => none
    | _ => none

/-- `re.search` for the email pattern: leftmost match wins. -/
def emailSearch : Str → Option Str
  | [] => none
  | c :: rest =>
    match emailHere (c :: rest) with
    | some m => some m
    | none => emailSearch rest

/-- Python `str.splitlines` on `\n`, `\r`, `\r\n`, fuel-indexed. -/
def splitLinesF : Nat → Str → Str → List Str
  | 0, cur, _ => [cur.reverse]
  | fuel + 1, cur, cs =>
    match cs with
    | [] => if cur = [] then [] else [cur.reverse]
    | '\r' :: '\n' :: rest => cur.reverse :: splitLinesF fuel [] rest
    | '\n' :: rest => cur.reverse :: splitLinesF fuel [] rest
    | '\r' :: rest => cur.reverse :: splitLinesF fuel [] rest
    | c :: rest => splitLinesF fuel (c :: cur) rest

def splitLines (s : Str) : List Str := splitLinesF (s.length + 1) [] s

/-- The `if emp["full_name"]: employees.append(emp)` guard of the
extractor: keep a record only when its name is truthy. -/
def keepNamed (e : EmpData) : Option EmpData :=
  if truthy e.full_name then some e else none

/-- One line of app.py `parse_employee_list_from_text`: `none` for a line
contributing no record. -/
def parseEmployeeLine (rawLine : Str) : Option EmpData :=
  let line := trimWs rawLine
  if line = [] then none
  else
    let parts := splitLine line
    let emp0 : EmpData :=
      { full_name := (parts.get? 0).map trimWs,
        title := if 2 ≤ parts.length then (parts.get? 1).map trimWs else none,
        department := if 3 ≤ parts.length then (parts.get? 2).map trimWs else none,
        seniority := if 4 ≤ parts.length then (parts.get? 3).map trimWs else none,
        profile_url := none, email := none }
    let emp1 : EmpData :=
      if 5 ≤ parts.length then
        let mayb := trimWs ((parts.get? 4).getD [])
        if '@' ∈ mayb then { emp0 with email := some mayb }
        else { emp0 with profile_url := some mayb }
      else emp0
    let emp2 : EmpData :=
      if truthy emp1.email then emp1
      else
        match emailSearch line with
        | some m => { emp1 with email := some m }
        | none => emp1
    keepNamed emp2

/-- app.py `parse_employee_list_from_text`. -/
def parseEmployeeListFromText (t : Str) : List EmpData :=
  (splitLines t).filterMap parseEmployeeLine

/-- Resolver exactly as claim C6 words it: the first strategy compares the
stored key against `normalize(query)` (the whitespace-collapsing
case-folding normalization), then exact name, then lowercased name. -/
def specResolveClaimed (s : Store) (raw : Str) : Option Company :=
  match findP (fun c => c.name_normalized = some (normalizeName raw)) s.companies with
  | some c => some c
  | none =>
    match findP (fun c => c.name = raw) s.companies with
    | some c => some c
    | none => findP (fun c => lowerStr c.name = lowerStr raw) s.companies

/-- The employees of a parsed batch that survive empty-name filtering and
in-batch key dedup, given keys already seen. -/
def survivorsFrom (seen : List Str) : List EmpData → List EmpData
  | [] => []
  | d :: rest =>
    let nm := fullNameTrim d
    if nm = [] then survivorsFrom seen rest
    else if normalizeName nm ∈ seen then survivorsFrom seen rest
    else d :: survivorsFrom (normalizeName nm :: seen) rest

/-- The distinct normalized full-name keys of a parsed employee batch, in
first-occurrence order. -/
def dedupKeys (l : List EmpData) : List Str :=
  (survivorsFrom [] l).map (fun d => normalizeName (fullNameTrim d))

/-! Basic lemmas about the store primitives. -/

theorem truthy_iff (o : Option Str) : truthy o = true ↔ (o ≠ none ∧ o ≠ some []) := by
  cases o with
  | none => simp [truthy]
  | some s => cases s <;> simp [truthy]

theorem truthy_eq_false (o : Option Str) : truthy o = false ↔ (o = none ∨ o = some []) := by
  cases o with
  | none => simp [truthy]
  | some s => cases s <;> simp [truthy]

theorem findP_eq_none (p : α → Prop) [DecidablePred p] (l : List α) :
    findP p l = none ↔ ∀ a ∈ l, ¬ p a := by
  induction l with
  | nil => simp [findP]
  | cons a l ih => by_cases h : p a <;> simp [findP, h, ih]

theorem findP_isSome (p : α → Prop) [DecidablePred p] (l : List α) :
    (findP p l).isSome = true ↔ ∃ a ∈ l, p a := by
  induction l with
  | nil => simp [findP]
  | cons a l ih => by_cases h : p a <;> simp [findP, h, ih]

theorem findP_mem (p : α → Prop) [DecidablePred p] (l : List α) (a : α)
    (h : findP p l = some a) : a ∈ l ∧ p a := by
  induction l with
  | nil => exact absurd h (by simp [findP])
  | cons b l ih =>
    by_cases hb : p b
    · simp only [findP, if_pos hb, Option.some.injEq] at h
      subst h
      exact ⟨List.mem_cons_self _ _, hb⟩
    · simp only [findP, if_neg hb] at h
      exact ⟨List.mem_cons_of_mem _ (ih h).1, (ih h).2⟩

theorem findIdxP_get (p : α → Prop) [DecidablePred p] :
    ∀ (l : List α) (i : Nat), findIdxP p l = some i → ∃ a, l.get? i = some a ∧ p a := by
  intro l
  induction l with
  | nil => intro i h; exact absurd h (by simp [findIdxP])
  | cons a l ih =>
    intro i h
    by_cases ha : p a
    · simp only [findIdxP, if_pos ha, Option.some.injEq] at h
      subst h
      exact ⟨a, rfl, ha⟩
    · simp only [findIdxP, if_neg ha] at h
      rcases hj : findIdxP p l with _ | j
      · rw [hj] at h
        exact absurd h (by simp)
      · rw [hj] at h
        simp only [Option.map_some', Option.some.injEq] at h
        subst h
        exact ih j hj

theorem findIdxP_lt (p : α → Prop) [DecidablePred p] (l : List α) (i : Nat)
    (h : findIdxP p l = some i) : i < l.length := by
  obtain ⟨a, ha, _⟩ := findIdxP_get p l i h
  exact (List.get?_eq_some.mp ha).1

theorem findIdxP_eq_none (p : α → Prop) [DecidablePred p] (l : List α) :
    findIdxP p l = none ↔ ∀ a ∈ l, ¬ p a := by
  induction l with
  | nil => simp [findIdxP]
  | cons a l ih =>
    by_cases h : p a
    · simp [findIdxP, h]
    · simp [findIdxP, h, ih, Option.map_eq_none]

theorem updAt_length (f : α → α) : ∀ (l : List α) (i : Nat), (updAt f l i).length = l.length := by
  intro l
  induction l with
  | nil => intro i; rfl
  | cons a l ih =>
    intro i
    cases i with
    | zero => rfl
    | succ n => simp [updAt, ih]

theorem updAt_get?_same (f : α → α) :
    ∀ (l : List α) (i : Nat), (updAt f l i).get? i = (l.get? i).map f := by
  intro l
  induction l with
  | nil => intro i; cases i <;> rfl
  | cons a l ih =>
    intro i
    cases i with
    | zero => rfl
    | succ n => simpa [updAt] using ih n

theorem updAt_map (g : α → β) (f : α → α) (hf : ∀ a, g (f a) = g a) :
    ∀ (l : List α) (i : Nat), (updAt f l i).map g = l.map g := by
  intro l
  induction l with
  | nil => intro i; rfl
  | cons a l ih =>
    intro i
    cases i with
    | zero => simp [updAt, hf]
    | succ n => simp [updAt, ih]

theorem hasEmployees_iff (s : Store) (cid : Nat) :
    hasEmployees s cid = true ↔ ∃ r ∈ s.employees, r.company_id = cid := by
  unfold hasEmployees
  exact findP_isSome _ _

theorem hasEmployees_eq_false (s : Store) (cid : Nat) :
    hasEmployees s cid = false ↔ ∀ r ∈ s.employees, r.company_id ≠ cid := by
  constructor
  · intro h r hr hc
    have htrue := (hasEmployees_iff s cid).mpr ⟨r, hr, hc⟩
    rw [h] at htrue
    exact absurd htrue (by simp)
  · intro h
    unfold hasEmployees
    cases hf : findP (fun r => r.company_id = cid) s.employees with
    | none => rfl
    | some a =>
      obtain ⟨hm, hp⟩ := findP_mem _ _ _ hf
      exact absurd hp (h a hm)

/-! Claim C10: the resolver on the empty query. -/

/-- C10.  For the empty query string the lookup resolver returns not-found
immediately, in every store state. -/
theorem claim10_empty_query_resolves_none (s : Store) : getCompanyByName s [] = none := by
  simp [getCompanyByName]

/-! Claim C1: the employee merge policy. -/

/-- C1.  The employee merge of the upsert overwrites each of title,
department, seniority, profile_url, email exactly when the newly parsed
value is non-empty (not absent, not the empty string) and the stored value
is the unknown sentinel (`None` or the placeholder text); otherwise the
stored value is kept. -/
theorem claim1_employee_fill_only_if_missing (e : EmployeeRow) (d : EmpData) :
    ((updateEmployee e d).title =
      if (d.title ≠ none ∧ d.title ≠ some []) ∧ (e.title = none ∨ e.title = some notFound)
      then d.title else e.title) ∧
    ((updateEmployee e d).department =
      if (d.department ≠ none ∧ d.department ≠ some []) ∧
        (e.department = none ∨ e.department = some notFound)
      then d.department else e.department) ∧
    ((updateEmployee e d).seniority =
      if (d.seniority ≠ none ∧ d.seniority ≠ some []) ∧
        (e.seniority = none ∨ e.seniority = some notFound)
      then d.seniority else e.seniority) ∧
    ((updateEmployee e d).profile_url =
      if (d.profile_url ≠ none ∧ d.profile_url ≠ some []) ∧
        (e.profile_url = none ∨ e.profile_url = some notFound)
      then d.profile_url else e.profile_url) ∧
    ((updateEmployee e d).email =
      if (d.email ≠ none ∧ d.email ≠ some []) ∧ (e.email = none ∨ e.email = some notFound)
      then d.email else e.email) := by
  refine ⟨?_, ?_, ?_, ?_, ?_⟩ <;>
    exact if_congr (and_congr_left' (truthy_iff _)) rfl rfl

/-! Claim C7: the cache decision. -/

/-- C7.  The enrichment trigger is true exactly when the company is missing
one of industry, domain, employee_size, or has no stored employees; a
complete company with at least one employee triggers no enrichment. -/
theorem claim7_cache_decision (s : Store) (c : Company) :
    (enrichmentTriggered s c = true ↔
      ((c.industry = none ∨ c.industry = some []) ∨ (c.domain = none ∨ c.domain = some []) ∨
        c.employee_size = none ∨ ∀ r ∈ s.employees, r.company_id ≠ c.id)) ∧
    ((c.industry ≠ none ∧ c.industry ≠ some [] ∧ c.domain ≠ none ∧ c.domain ≠ some [] ∧
      c.employee_size ≠ none ∧ (∃ r ∈ s.employees, r.company_id = c.id)) →
      enrichmentTriggered s c = false) := by
  have hbool : enrichmentTriggered s c = true ↔
      (truthy c.industry = false ∨ truthy c.domain = false ∨ c.employee_size = none ∨
        hasEmployees s c.id = false) := by
    unfold enrichmentTriggered needsEnrichment
    simp [Bool.or_eq_true, Bool.not_eq_true', decide_eq_true_eq, or_assoc]
  have hiff : enrichmentTriggered s c = true ↔
      ((c.industry = none ∨ c.industry = some []) ∨ (c.domain = none ∨ c.domain = some []) ∨
        c.employee_size = none ∨ ∀ r ∈ s.employees, r.company_id ≠ c.id) := by
    rw [hbool, truthy_eq_false, truthy_eq_false, hasEmployees_eq_false]
  refine ⟨hiff, ?_⟩
  rintro ⟨h1, h2, h3, h4, h5, r, hr, hc⟩
  rw [Bool.eq_false_iff]
  intro hb
  rcases hiff.mp hb with (h | h) | (h | h) | h | h
  · exact h1 h
  · exact h2 h
  · exact h3 h
  · exact h4 h
  · exact h5 h
  · exact h r hr hc

def claim7Company : Company :=
  { id := 0, name := ("Acme").toList, name_normalized := some (("acme").toList),
    industry := some (("Tech").toList), employee_size := some 10,
    domain := some (("acme.com").toList), email := none }

def claim7Row : EmployeeRow :=
  { id := 0, full_name := ("Jane Doe").toList, title := none, department := none,
    seniority := none, profile_url := none, email := none, company_id := 0 }

def claim7Store : Store :=
  { companies := [claim7Company], employees := [claim7Row],
    nextCompanyId := 1, nextEmployeeId := 1 }

/-- C7 witness: a complete cached company with one employee triggers no
enrichment. -/
theorem claim7_witness : enrichmentTriggered claim7Store claim7Company = false :=
  (claim7_cache_decision claim7Store claim7Company).2
    ⟨by decide, by decide, by decide, by decide, by decide,
      claim7Row, List.mem_singleton_self _, rfl⟩

/-! Claim C5: the company merge policy. -/

def claim5Company : Company :=
  { id := 0, name := ("Acme").toList, name_normalized := some (("acme").toList),
    industry := some (("Tech").toList), employee_size := some 100, domain := none, email := none }

def claim5Data : CompanyData :=
  { name := some (("Acme").toList), industry := some (("Software").toList),
    employee_size := PyVal.vStr (("lots").toList), domain := none, email := none }

/-- C5 counterexample.  A stored employee_size of 100 merged with the
non-empty, non-integer parsed value "lots" is not left unchanged as the
claim states: `_update_company` overwrites it with the `None` result of
`_parse_employee_size`, wiping the stored value (the soft-field part shown
on industry behaves as claimed). -/
theorem claim5_counterexample :
    sizePresent claim5Data.employee_size = true ∧
    parseEmployeeSize claim5Data.employee_size = none ∧
    claim5Company.employee_size = some 100 ∧
    (updateCompany claim5Company claim5Data none).employee_size = none ∧
    (updateCompany claim5Company claim5Data none).employee_size ≠ claim5Company.employee_size ∧
    (updateCompany claim5Company claim5Data none).industry = some (("Software").toList) :=
  ⟨rfl, rfl, rfl, rfl, by decide, rfl⟩

/-- C5 amended.  Merging parsed data into an existing company overwrites
each of industry, domain, email exactly when the newly parsed value is
non-empty; employee_size is recomputed whenever the parsed value is neither
None nor the empty string — to the parsed integer when integer-parseable and
to None (wiping the stored value) when not — and is left unchanged
otherwise; the upsert itself never fails on a bad size. -/
theorem claim5_amended_company_merge (c : Company) (cd : CompanyData) (ni : Option Str) :
    ((updateCompany c cd ni).industry =
      if cd.industry ≠ none ∧ cd.industry ≠ some [] then cd.industry else c.industry) ∧
    ((updateCompany c cd ni).domain =
      if cd.domain ≠ none ∧ cd.domain ≠ some [] then cd.domain else c.domain) ∧
    ((updateCompany c cd ni).email =
      if cd.email ≠ none ∧ cd.email ≠ some [] then cd.email else c.email) ∧
    ((updateCompany c cd ni).employee_size =
      if sizePresent cd.employee_size = true then parseEmployeeSize cd.employee_size
      else c.employee_size) ∧
    (sizePresent cd.employee_size = true → parseEmployeeSize cd.employee_size = none →
      (updateCompany c cd ni).employee_size = none) := by
  refine ⟨?_, ?_, ?_, ?_, ?_⟩
  · exact if_congr (truthy_iff _) rfl rfl
  · exact if_congr (truthy_iff _) rfl rfl
  · exact if_congr (truthy_iff _) rfl rfl
  · rfl
  · intro h1 h2
    simp [updateCompany, h1, h2]

/-- C5 amended witness at the counterexample instance. -/
theorem claim5_amended_witness :
    (updateCompany claim5Company claim5Data none).employee_size = none :=
  (claim5_amended_company_merge claim5Company claim5Data none).2.2.2.2 rfl rfl

/-! Claim C6: the lookup resolver's strategy order. -/

def claim6Company : Company :=
  { id := 0, name := ("X").toList, name_normalized := some (("acme corp").toList),
    industry := none, employee_size := none, domain := none, email := none }

def claim6Store : Store :=
  { companies := [claim6Company], employees := [], nextCompanyId := 1, nextEmployeeId := 0 }

def claim6Query : Str := ("Acme  Corp").toList

/-- C6 counterexample.  The claim's first strategy compares the stored key
with `normalize(query)`; the code compares with `query.strip().lower()`.
On the two-space query "Acme  Corp" against a company stored under the
normalized key "acme corp", the claimed resolver hits strategy 1 while the
code's resolver returns not-found. -/
theorem claim6_counterexample :
    normalizeName claim6Query = ("acme corp").toList ∧
    specResolveClaimed claim6Store claim6Query = some claim6Company ∧
    getCompanyByName claim6Store claim6Query = none :=
  ⟨by decide, by decide, by decide⟩

/-- C6 amended.  The resolver applies its strategies in strict priority
order, returning on the first hit: stored `name_normalized` equals
`query.strip().lower()` (lowercasing and trimming only — not the
whitespace-collapsing normalize), then exact raw-name match, then
lowercased-name match. -/
theorem claim6_amended_priority_order (s : Store) (q : Str) (hq : q ≠ []) :
    (∀ c, findP (fun c => c.name_normalized = some (lowerStr (trimWs q))) s.companies = some c →
      getCompanyByName s q = some c) ∧
    (findP (fun c => c.name_normalized = some (lowerStr (trimWs q))) s.companies = none →
      ∀ c, findP (fun c => c.name = q) s.companies = some c →
        getCompanyByName s q = some c) ∧
    (findP (fun c => c.name_normalized = some (lowerStr (trimWs q))) s.companies = none →
      findP (fun c => c.name = q) s.companies = none →
      getCompanyByName s q = findP (fun c => lowerStr c.name = lowerStr (trimWs q)) s.companies) := by
  refine ⟨?_, ?_, ?_⟩
  · intro c h
    simp only [getCompanyByName, if_neg hq, h]
  · intro h1 c h2
    simp only [getCompanyByName, if_neg hq, h1, h2]
  · intro h1 h2
    simp only [getCompanyByName, if_neg hq, h1, h2]

def claim6WitnessCompany : Company :=
  { id := 0, name := ("Acme").toList, name_normalized := some (("acme").toList),
    industry := none, employee_size := none, domain := none, email := none }

def claim6WitnessStore : Store :=
  { companies := [claim6WitnessCompany], employees := [], nextCompanyId := 1, nextEmployeeId := 0 }

/-- C6 amended witness: a strategy-1 hit at a concrete store and query. -/
theorem claim6_amended_witness :
    getCompanyByName claim6WitnessStore (("Acme").toList) = some claim6WitnessCompany :=
  (claim6_amended_priority_order claim6WitnessStore (("Acme").toList) (by decide)).1
    claim6WitnessCompany (by decide)

/-! Claim C4: transactional shape of the upsert. -/

def claim4Company : Company :=
  { id := 0, name := ("Acme").toList, name_normalized := some (("acme").toList),
    industry := some (("Tech").toList), employee_size := some 5,
    domain := some (("a.com").toList), email := none }

def claim4Store : Store :=
  { companies := [claim4Company], employees := [], nextCompanyId := 1, nextEmployeeId := 0 }

def claim4Emp : EmpData :=
  { full_name := some (("Bob Roe").toList), title := none, department := none,
    seniority := none, profile_url := none, email := none }

def claim4Data : ParsedData :=
  { company := { name := some (("Acme").toList), industry := some (("Software").toList),
                 employee_size := PyVal.vNone, domain := none, email := none },
    employees := [claim4Emp] }

def claim4Raw : Str := ("Acme").toList

def claim4Mid : Store :=
  match companyPhase claim4Store claim4Data claim4Raw with
  | some p => p.1
  | none => emptyStore

def claim4Fin : Store :=
  match upsertCompanyAndEmployees claim4Store claim4Data claim4Raw with
  | some p => p.1
  | none => emptyStore

def claim4Comp : Company :=
  match upsertCompanyAndEmployees claim4Store claim4Data claim4Raw with
  | some p => p.2
  | none => defaultCompany

/-- C4 counterexample.  The company change is committed by
`_update_company` before `_upsert_employees` runs and commits separately,
so the intermediate committed store differs from both the initial store and
the final one: a failure raised between the two commits leaves a partial
update persisted, refuting the one-atomic-unit claim. -/
theorem claim4_counterexample :
    (companyPhase claim4Store claim4Data claim4Raw).map Prod.fst = some claim4Mid ∧
    (upsertCompanyAndEmployees claim4Store claim4Data claim4Raw).map Prod.fst = some claim4Fin ∧
    claim4Mid ≠ claim4Store ∧ claim4Mid ≠ claim4Fin :=
  ⟨rfl, rfl, by decide, by decide⟩

theorem upsert_decomp (s : Store) (d : ParsedData) (raw : Str)
    (s' : Store) (c : Company) (h : upsertCompanyAndEmployees s d raw = some (s', c)) :
    ∃ mid, companyPhase s d raw = some (mid, c) ∧
      s' = upsertEmployees mid c.id d.employees := by
  unfold upsertCompanyAndEmployees at h
  rcases hc : companyPhase s d raw with _ | ⟨s1, c1⟩
  · rw [hc] at h
    exact absurd h (by simp)
  · rw [hc] at h
    simp only [Option.some.injEq, Prod.mk.injEq] at h
    obtain ⟨h1, h2⟩ := h
    subst h2
    exact ⟨s1, rfl, h1.symm⟩

/-- C4 amended.  One upsert call's writes form two commit units, not one:
the company phase commits on its own, and the employee phase runs and
commits separately on the store state left behind by the company commit
(each session is still released on every exit path). -/
theorem claim4_amended_two_commit_units (s : Store) (d : ParsedData) (raw : Str)
    (s' : Store) (c : Company) (h : upsertCompanyAndEmployees s d raw = some (s', c)) :
    ∃ mid, companyPhase s d raw = some (mid, c) ∧
      s' = upsertEmployees mid c.id d.employees :=
  upsert_decomp s d raw s' c h

/-- C4 amended witness at the counterexample instance. -/
theorem claim4_amended_witness :
    ∃ mid, companyPhase claim4Store claim4Data claim4Raw = some (mid, claim4Comp) ∧
      claim4Fin = upsertEmployees mid claim4Comp.id claim4Data.employees :=
  claim4_amended_two_commit_units claim4Store claim4Data claim4Raw claim4Fin claim4Comp rfl

/-! Claim C3 counterexample (the amended C3 theorem follows later). -/

def claim3Data : ParsedData :=
  { company := { name := some (("Acme Corp").toList), industry := none,
                 employee_size := PyVal.vNone, domain := none, email := none },
    employees := [] }

def claim3Raw : Str := ("Acme  Corp").toList

/-- C3 counterexample.  With the two-space query "Acme  Corp" the upsert
stores `name_normalized = "acme  corp"` (strip().lower(), internal
whitespace preserved), which is not `normalize(query) = "acme corp"` as the
claim requires. -/
theorem claim3_counterexample :
    (upsertCompanyAndEmployees emptyStore claim3Data claim3Raw).map
        (fun p => p.2.name_normalized) = some (some (("acme  corp").toList)) ∧
    normalizeName claim3Raw = ("acme corp").toList ∧
    ("acme  corp").toList ≠ normalizeName claim3Raw :=
  ⟨rfl, by decide, by decide⟩

/-! Claim C9: the heuristic extractor. -/

def claim9Line : Str := ("Jane Doe | VP Sales | Sales | Senior | jane@x.com").toList

def claim9Record : EmpData :=
  { full_name := some (("Jane Doe").toList), title := some (("VP Sales").toList),
    department := some (("Sales").toList), seniority := some (("Senior").toList),
    profile_url := none, email := some (("jane@x.com").toList) }

theorem keepNamed_truthy (x e : EmpData) (h : keepNamed x = some e) :
    truthy e.full_name = true := by
  unfold keepNamed at h
  split at h
  · next hc =>
    simp only [Option.some.injEq] at h
    subst h
    exact hc
  · exact absurd h (by simp)

theorem parseEmployeeLine_truthy (l : Str) (e : EmpData) (h : parseEmployeeLine l = some e) :
    truthy e.full_name = true := by
  simp only [parseEmployeeLine] at h
  split at h
  · exact absurd h (by simp)
  · exact keepNamed_truthy _ _ h

/-- C9.  The heuristic extractor on the pipe-delimited sample line yields
exactly one record with the claimed five fields (the fifth field contains
`@` and is assigned to email, not profile_url), and lines whose leading
field trims to an empty name contribute no record — every extracted record
carries a non-empty name. -/
theorem claim9_heuristic_extractor :
    parseEmployeeListFromText claim9Line = [claim9Record] ∧
    ∀ t : Str, ∀ e ∈ parseEmployeeListFromText t, truthy e.full_name = true := by
  constructor
  · rfl
  · intro t e he
    unfold parseEmployeeListFromText at he
    obtain ⟨l, _, hl⟩ := List.mem_filterMap.mp he
    exact parseEmployeeLine_truthy l e hl

/-- C9 witness: the sample's record, obtained through the theorem itself,
has a non-empty name. -/
theorem claim9_witness : truthy claim9Record.full_name = true :=
  claim9_heuristic_extractor.2 claim9Line claim9Record
    (by rw [claim9_heuristic_extractor.1]; exact List.mem_singleton_self _)

/-! Claim C3: the stored normalized key (amended half). -/

theorem lowerStr_eq_nil (s : Str) : lowerStr s = [] ↔ s = [] := by
  unfold lowerStr
  exact List.map_eq_nil

theorem upsertGo_companies (cid : Nat) :
    ∀ (l : List EmpData) (seen : List Str) (s : Store),
      (upsertEmployeesGo cid seen s l).companies = s.companies := by
  intro l
  induction l with
  | nil => intro seen s; rfl
  | cons d rest ih =>
    intro seen s
    simp only [upsertEmployeesGo]
    split
    · exact ih _ _
    · split
      · exact ih _ _
      · split
        · exact ih _ _
        · exact ih _ _

theorem findExisting_lt (s : Store) (ni : Option Str) (cd : CompanyData) (nm : Str) (i : Nat)
    (h : findExistingCompanyIdx s ni cd nm = some i) : i < s.companies.length := by
  unfold findExistingCompanyIdx at h
  rcases h1 : (if truthy ni then findIdxP (fun c => c.name_normalized = ni) s.companies
      else none) with _ | j
  · rw [h1] at h
    dsimp only at h
    rcases h2 : (if truthy cd.name then findIdxP (fun c => c.name = cd.name.getD []) s.companies
        else none) with _ | j
    · rw [h2] at h
      dsimp only at h
      exact findIdxP_lt _ _ _ h
    · rw [h2] at h
      dsimp only at h
      simp only [Option.some.injEq] at h
      subst h
      split at h2
      · exact findIdxP_lt _ _ _ h2
      · exact absurd h2 (by simp)
  · rw [h1] at h
    dsimp only at h
    simp only [Option.some.injEq] at h
    subst h
    split at h1
    · exact findIdxP_lt _ _ _ h1
    · exact absurd h1 (by simp)

/-- C3 amended.  After every upsert performed with a query string whose
`strip().lower()` is non-empty, the persisted target company's
`name_normalized` equals exactly `strip().lower()` of the query — lowercased
and trimmed, internal whitespace preserved (not the claimed normalize), and
never derived from the parsed company name. -/
theorem claim3_amended_normalized_key (s : Store) (d : ParsedData) (raw : Str)
    (hq : trimWs raw ≠ []) (s' : Store) (c : Company)
    (h : upsertCompanyAndEmployees s d raw = some (s', c)) :
    c.name_normalized = some (lowerStr (trimWs raw)) ∧ c ∈ s'.companies := by
  have hraw : raw ≠ [] := by
    intro hr
    exact hq (by rw [hr]; rfl)
  have hkey : lowerStr (trimWs raw) ≠ [] := fun hk => hq ((lowerStr_eq_nil _).mp hk)
  have htr : truthy (some (lowerStr (trimWs raw))) = true := by
    rw [truthy_iff]
    exact ⟨by simp, by simp [hkey]⟩
  obtain ⟨mid, hmid, hs'⟩ := upsert_decomp s d raw s' c h
  unfold companyPhase at hmid
  dsimp only at hmid
  simp only [if_neg hraw] at hmid
  rcases hf : findExistingCompanyIdx s (some (lowerStr (trimWs raw))) d.company
      (pyOr d.company.name raw) with _ | i
  · rw [hf] at hmid
    dsimp only at hmid
    rw [if_pos htr] at hmid
    simp only [Option.some.injEq, Prod.mk.injEq] at hmid
    obtain ⟨hm1, hm2⟩ := hmid
    constructor
    · rw [← hm2]
      rfl
    · rw [hs']
      unfold upsertEmployees
      rw [upsertGo_companies, ← hm1]
      show c ∈ s.companies ++ [createCompany s.nextCompanyId (pyOr d.company.name raw)
        d.company (some (lowerStr (trimWs raw)))]
      rw [hm2]
      exact List.mem_append_right _ (List.mem_singleton_self _)
  · rw [hf] at hmid
    dsimp only at hmid
    simp only [Option.some.injEq, Prod.mk.injEq] at hmid
    obtain ⟨hm1, hm2⟩ := hmid
    have hlt := findExisting_lt _ _ _ _ _ hf
    constructor
    · rw [← hm2]
      simp [updateCompany, htr]
    · rw [hs']
      unfold upsertEmployees
      rw [upsertGo_companies, ← hm1]
      show c ∈ updAt (fun _ => updateCompany (getAt s.companies i defaultCompany)
        d.company (some (lowerStr (trimWs raw)))) s.companies i
      rw [hm2]
      have hg : (updAt (fun _ => c) s.companies i).get? i = some c := by
        rw [updAt_get?_same]
        obtain ⟨a, ha⟩ : ∃ a, s.companies.get? i = some a :=
          ⟨s.companies.get ⟨i, hlt⟩, List.get?_eq_get hlt⟩
        rw [ha]
        rfl
      exact List.get?_mem hg

def claim3ResultStore : Store :=
  match upsertCompanyAndEmployees emptyStore claim3Data claim3Raw with
  | some p => p.1
  | none => emptyStore

def claim3ResultCompany : Company :=
  match upsertCompanyAndEmployees emptyStore claim3Data claim3Raw with
  | some p => p.2
  | none => defaultCompany

/-- C3 amended witness at the counterexample instance. -/
theorem claim3_amended_witness :
    claim3ResultCompany.name_normalized = some (lowerStr (trimWs claim3Raw)) ∧
    claim3ResultCompany ∈ claim3ResultStore.companies :=
  claim3_amended_normalized_key emptyStore claim3Data claim3Raw (by decide)
    claim3ResultStore claim3ResultCompany rfl

/-! Claim C2: idempotence of the upsert.  First: `lower`-equality of names
implies equality of normalized keys (needed to rule out a lower-case match
against a row whose normalized key was not yet seen). -/

theorem charOfNat_toNat (n : Nat) (h : n.isValidChar) : (Char.ofNat n).toNat = n := by
  simp only [Char.ofNat, dif_pos (show n.isValidChar from h)]
  simp [Char.ofNatAux, Char.toNat, UInt32.ofNat', BitVec.ofNatLt]
  rfl

theorem isWsChar_lowerChar (c : Char) : isWsChar (lowerChar c) = isWsChar c := by
  unfold lowerChar
  split
  · next h =>
    have ht : (Char.ofNat (c.toNat + 32)).toNat = c.toNat + 32 :=
      charOfNat_toNat _ (Or.inl (by omega))
    have h1 : isWsChar (Char.ofNat (c.toNat + 32)) = false := by
      simp only [isWsChar, ht, Bool.or_eq_false_iff, decide_eq_false_iff_not]
      omega
    have h2 : isWsChar c = false := by
      simp only [isWsChar, Bool.or_eq_false_iff, decide_eq_false_iff_not]
      omega
    rw [h1, h2]
  · rfl

theorem notWs_comp_lower : ((fun d => !isWsChar d) ∘ lowerChar) = fun d => !isWsChar d := by
  funext c
  simp [Function.comp, isWsChar_lowerChar]

theorem ws_comp_lower : (isWsChar ∘ lowerChar) = isWsChar := by
  funext c
  simp [Function.comp, isWsChar_lowerChar]

theorem dropWsL_lower (s : Str) : dropWsL (lowerStr s) = lowerStr (dropWsL s) := by
  unfold dropWsL lowerStr
  rw [List.dropWhile_map, ws_comp_lower]

theorem dropWsR_lower (s : Str) : dropWsR (lowerStr s) = lowerStr (dropWsR s) := by
  unfold dropWsR lowerStr
  rw [← List.map_reverse, List.dropWhile_map, ws_comp_lower, List.map_reverse]

theorem trimWs_lower (s : Str) : trimWs (lowerStr s) = lowerStr (trimWs s) := by
  unfold trimWs
  rw [dropWsL_lower, dropWsR_lower]

theorem joinWords_lower : ∀ L : List Str, lowerStr (joinWords L) = joinWords (L.map lowerStr)
  | [] => rfl
  | [w] => rfl
  | w :: v :: rest => by
    show lowerStr (w ++ ' ' :: joinWords (v :: rest)) =
      joinWords (lowerStr w :: (v :: rest).map lowerStr)
    have htail : joinWords (lowerStr w :: (v :: rest).map lowerStr) =
        lowerStr w ++ ' ' :: joinWords ((v :: rest).map lowerStr) := by
      simp only [List.map_cons, joinWords]
    rw [htail]
    unfold lowerStr
    rw [List.map_append, List.map_cons]
    have h32 : lowerChar ' ' = ' ' := rfl
    rw [h32]
    have := joinWords_lower (v :: rest)
    unfold lowerStr at this
    rw [this]

theorem splitWsF_lower : ∀ (fuel : Nat) (s : Str),
    splitWsF fuel (lowerStr s) = (splitWsF fuel s).map lowerStr := by
  intro fuel
  induction fuel with
  | zero => intro s; rfl
  | succ n ih =>
    intro s
    simp only [splitWsF]
    rw [dropWsL_lower s]
    cases hds : dropWsL s with
    | nil => rfl
    | cons c rest =>
      show (match lowerStr (c :: rest) with
        | [] => []
        | c :: rest =>
          (c :: rest.takeWhile (fun d => !isWsChar d)) ::
            splitWsF n (rest.dropWhile (fun d => !isWsChar d))) = _
      have hlc : lowerStr (c :: rest) = lowerChar c :: lowerStr rest := rfl
      rw [hlc]
      dsimp only
      unfold lowerStr
      rw [List.takeWhile_map, List.dropWhile_map, notWs_comp_lower]
      have := ih (rest.dropWhile (fun d => !isWsChar d))
      unfold lowerStr at this
      rw [this]
      simp [List.map_cons]

theorem lowerStr_length (s : Str) : (lowerStr s).length = s.length := List.length_map s lowerChar

theorem splitWs_lower (s : Str) : splitWs (lowerStr s) = (splitWs s).map lowerStr := by
  unfold splitWs
  rw [lowerStr_length]
  exact splitWsF_lower _ s

theorem normalizeName_push_lower (x : Str) :
    normalizeName x = if x = [] then [] else trimWs (joinWords (splitWs (lowerStr x))) := by
  unfold normalizeName
  congr 1
  rw [splitWs_lower, ← joinWords_lower, ← trimWs_lower]

theorem normalizeName_eq_of_lower (a b : Str) (h : lowerStr a = lowerStr b) :
    normalizeName a = normalizeName b := by
  rw [normalizeName_push_lower, normalizeName_push_lower, h]
  have hnil : a = [] ↔ b = [] := by
    constructor
    · intro ha
      have : lowerStr b = [] := by rw [← h, ha]; rfl
      exact (lowerStr_eq_nil b).mp this
    · intro hb
      have : lowerStr a = [] := by rw [h, hb]; rfl
      exact (lowerStr_eq_nil a).mp this
  exact if_congr hnil rfl rfl

/-- The projection of an employee row that the upsert loop's matching and
dedup behaviour depends on. -/
def empProj (r : EmployeeRow) : Nat × Str := (r.company_id, r.full_name)

theorem exists_empProj_transfer (P : Nat × Str → Prop) (l₁ l₂ : List EmployeeRow)
    (h : l₁.map empProj = l₂.map empProj) :
    (∃ r ∈ l₁, P (empProj r)) → ∃ r ∈ l₂, P (empProj r) := by
  rintro ⟨r, hr, hp⟩
  have hmem : empProj r ∈ l₂.map empProj := by
    rw [← h]
    exact List.mem_map_of_mem empProj hr
  obtain ⟨r₂, hr₂, he⟩ := List.mem_map.mp hmem
  refine ⟨r₂, hr₂, ?_⟩
  rw [he]
  exact hp

theorem updateEmployee_empProj (r : EmployeeRow) (d : EmpData) :
    empProj (updateEmployee r d) = empProj r := rfl

/-- First ingestion: when every stored row of this company already has its
key in `seen`, the loop inserts exactly the batch survivors, in order. -/
theorem upsertGo_fresh (cid : Nat) :
    ∀ (l : List EmpData) (seen : List Str) (s : Store),
      (∀ r ∈ s.employees, r.company_id = cid → normalizeName r.full_name ∈ seen) →
      (upsertEmployeesGo cid seen s l).employees.map empProj =
        s.employees.map empProj ++
          (survivorsFrom seen l).map (fun d => (cid, fullNameTrim d)) := by
  intro l
  induction l with
  | nil =>
    intro seen s _
    simp [upsertEmployeesGo, survivorsFrom]
  | cons d rest ih =>
    intro seen s hinv
    simp only [upsertEmployeesGo, survivorsFrom]
    by_cases h1 : fullNameTrim d = []
    · simp only [if_pos h1]
      exact ih seen s hinv
    · simp only [if_neg h1]
      by_cases h2 : normalizeName (fullNameTrim d) ∈ seen
      · simp only [if_pos h2]
        exact ih seen s hinv
      · simp only [if_neg h2]
        have hnone : findIdxP
            (fun r => r.company_id = cid ∧ lowerStr r.full_name = lowerStr (fullNameTrim d))
            s.employees = none := by
          rw [findIdxP_eq_none]
          rintro r hr ⟨hcid, hlow⟩
          exact h2 (by
            rw [← normalizeName_eq_of_lower r.full_name (fullNameTrim d) hlow]
            exact hinv r hr hcid)
        rw [hnone]
        have hinv' : ∀ r ∈ (s.employees ++
              [newEmployee s.nextEmployeeId cid (fullNameTrim d) d]),
            r.company_id = cid →
            normalizeName r.full_name ∈ (normalizeName (fullNameTrim d) :: seen) := by
          intro r hr hcid
          rcases List.mem_append.mp hr with hold | hnew
          · exact List.mem_cons_of_mem _ (hinv r hold hcid)
          · rw [List.mem_singleton.mp hnew]
            exact List.mem_cons_self _ _
        rw [ih (normalizeName (fullNameTrim d) :: seen) _ hinv']
        simp [List.map_append, List.append_assoc, empProj, newEmployee]

/-- Re-ingestion: when every batch survivor already has a lower-case match
among the stored rows of this company, the loop only updates in place and
the row projections are untouched. -/
theorem upsertGo_update (cid : Nat) :
    ∀ (l : List EmpData) (seen : List Str) (s : Store),
      (∀ d ∈ survivorsFrom seen l, ∃ r ∈ s.employees, r.company_id = cid ∧
          lowerStr r.full_name = lowerStr (fullNameTrim d)) →
      (upsertEmployeesGo cid seen s l).employees.map empProj = s.employees.map empProj := by
  intro l
  induction l with
  | nil =>
    intro seen s _
    rfl
  | cons d rest ih =>
    intro seen s hhave
    simp only [upsertEmployeesGo]
    by_cases h1 : fullNameTrim d = []
    · simp only [if_pos h1]
      refine ih seen s ?_
      intro d' hd'
      refine hhave d' ?_
      simp only [survivorsFrom, if_pos h1]
      exact hd'
    · simp only [if_neg h1]
      by_cases h2 : normalizeName (fullNameTrim d) ∈ seen
      · simp only [if_pos h2]
        refine ih seen s ?_
        intro d' hd'
        refine hhave d' ?_
        simp only [survivorsFrom, if_neg h1, if_pos h2]
        exact hd'
      · simp only [if_neg h2]
        have hd0 : d ∈ survivorsFrom seen (d :: rest) := by
          simp only [survivorsFrom, if_neg h1, if_neg h2]
          exact List.mem_cons_self _ _
        obtain ⟨r, hr, hpred⟩ := hhave d hd0
        have hsome : findIdxP
            (fun r => r.company_id = cid ∧ lowerStr r.full_name = lowerStr (fullNameTrim d))
            s.employees ≠ none := by
          intro hn
          rw [findIdxP_eq_none] at hn
          exact hn r hr hpred
        cases hf : findIdxP
            (fun r => r.company_id = cid ∧ lowerStr r.full_name = lowerStr (fullNameTrim d))
            s.employees with
        | none => exact absurd hf hsome
        | some i =>
          dsimp only
          have hmap : (updAt (fun r => updateEmployee r d) s.employees i).map empProj =
              s.employees.map empProj :=
            updAt_map empProj (fun r => updateEmployee r d)
              (fun r => updateEmployee_empProj r d) s.employees i
          have hhave' : ∀ d' ∈ survivorsFrom (normalizeName (fullNameTrim d) :: seen) rest,
              ∃ r ∈ (updAt (fun r => updateEmployee r d) s.employees i),
                r.company_id = cid ∧ lowerStr r.full_name = lowerStr (fullNameTrim d') := by
            intro d' hd'
            have hd'' : d' ∈ survivorsFrom seen (d :: rest) := by
              simp only [survivorsFrom, if_neg h1, if_neg h2]
              exact List.mem_cons_of_mem _ hd'
            obtain ⟨r', hr', hp'⟩ := hhave d' hd''
            exact exists_empProj_transfer
              (fun pr => pr.1 = cid ∧ lowerStr pr.2 = lowerStr (fullNameTrim d'))
              s.employees _ hmap.symm ⟨r', hr', hp'⟩
          calc (upsertEmployeesGo cid (normalizeName (fullNameTrim d) :: seen)
                { s with employees := updAt (fun r => updateEmployee r d) s.employees i }
                rest).employees.map empProj
              = (updAt (fun r => updateEmployee r d) s.employees i).map empProj :=
                ih _ _ hhave'
            _ = s.employees.map empProj := hmap

/-- The keys of the surviving batch entries are pairwise distinct and
disjoint from the already-seen keys. -/
theorem survivors_keys_nodup :
    ∀ (l : List EmpData) (seen : List Str),
      ((survivorsFrom seen l).map (fun d => normalizeName (fullNameTrim d))).Nodup ∧
      ∀ kk ∈ (survivorsFrom seen l).map (fun d => normalizeName (fullNameTrim d)), kk ∉ seen := by
  intro l
  induction l with
  | nil =>
    intro seen
    exact ⟨List.nodup_nil, by simp [survivorsFrom]⟩
  | cons d rest ih =>
    intro seen
    simp only [survivorsFrom]
    by_cases h1 : fullNameTrim d = []
    · simp only [if_pos h1]
      exact ih seen
    · simp only [if_neg h1]
      by_cases h2 : normalizeName (fullNameTrim d) ∈ seen
      · simp only [if_pos h2]
        exact ih seen
      · simp only [if_neg h2, List.map_cons]
        obtain ⟨ihn, ihd⟩ := ih (normalizeName (fullNameTrim d) :: seen)
        constructor
        · refine List.nodup_cons.mpr ⟨?_, ihn⟩
          intro hmem
          exact (ihd _ hmem) (List.mem_cons_self _ _)
        · intro kk hkk
          rcases List.mem_cons.mp hkk with he | hm
          · rw [he]
            exact h2
          · intro hks
            exact (ihd kk hm) (List.mem_cons_of_mem _ hks)

theorem findExisting_empty (ni : Option Str) (cd : CompanyData) (nm : Str) :
    findExistingCompanyIdx emptyStore ni cd nm = none := by
  unfold findExistingCompanyIdx
  have h0 : emptyStore.companies = ([] : List Company) := rfl
  rw [h0]
  simp [findIdxP]

/-- First call on the empty store: the company is created with the query
key and id 0, and the employee table is exactly the batch survivors. -/
theorem upsert_first_call (d : ParsedData) (raw : Str) (hq : trimWs raw ≠ []) :
    ∃ s1 c0,
      upsertCompanyAndEmployees emptyStore d raw = some (s1, c0) ∧
      s1.companies = [c0] ∧
      c0.name_normalized = some (lowerStr (trimWs raw)) ∧
      c0.id = 0 ∧
      s1.employees.map empProj =
        (survivorsFrom [] d.employees).map (fun dd => (0, fullNameTrim dd)) := by
  have hraw : raw ≠ [] := by
    intro hr
    exact hq (by rw [hr]; rfl)
  have hknil : lowerStr (trimWs raw) ≠ [] := fun hk => hq ((lowerStr_eq_nil _).mp hk)
  have htr : truthy (some (lowerStr (trimWs raw))) = true := by
    rw [truthy_iff]
    exact ⟨by simp, by simp [hknil]⟩
  have hph1 : companyPhase emptyStore d raw =
      some ({ companies := [createCompany 0 (pyOr d.company.name raw) d.company
                  (some (lowerStr (trimWs raw)))],
              employees := [], nextCompanyId := 1, nextEmployeeId := 0 },
            createCompany 0 (pyOr d.company.name raw) d.company
              (some (lowerStr (trimWs raw)))) := by
    unfold companyPhase
    dsimp only
    simp only [if_neg hraw]
    rw [findExisting_empty]
    dsimp only
    rw [if_pos htr]
    rfl
  refine Exists.intro (upsertEmployees (Store.mk
      [createCompany 0 (pyOr d.company.name raw) d.company (some (lowerStr (trimWs raw)))]
      [] 1 0) 0 d.employees)
    (Exists.intro (createCompany 0 (pyOr d.company.name raw) d.company
      (some (lowerStr (trimWs raw)))) ?_)
  refine ⟨?_, ?_, rfl, rfl, ?_⟩
  · unfold upsertCompanyAndEmployees
    rw [hph1]
    rfl
  · unfold upsertEmployees
    rw [upsertGo_companies]
  · unfold upsertEmployees
    rw [upsertGo_fresh 0 d.employees []
      (Store.mk [createCompany 0 (pyOr d.company.name raw) d.company
        (some (lowerStr (trimWs raw)))] [] 1 0)
      (by intro r hr _; exact absurd hr (List.not_mem_nil r))]
    rfl

/-- Second call on a one-company store that carries the query key and whose
employee table already covers the batch survivors: the upsert only updates,
preserving the row projections of both tables. -/
theorem upsert_second_call (d : ParsedData) (raw : Str) (hq : trimWs raw ≠ [])
    (s1 : Store) (c0 : Company)
    (hcomp : s1.companies = [c0])
    (hkey : c0.name_normalized = some (lowerStr (trimWs raw)))
    (hid : c0.id = 0)
    (hemp : s1.employees.map empProj =
      (survivorsFrom [] d.employees).map (fun dd => (0, fullNameTrim dd))) :
    ∃ s2 c2,
      upsertCompanyAndEmployees s1 d raw = some (s2, c2) ∧
      s2.companies.length = 1 ∧
      s2.employees.map empProj = s1.employees.map empProj := by
  have hraw : raw ≠ [] := by
    intro hr
    exact hq (by rw [hr]; rfl)
  have hknil : lowerStr (trimWs raw) ≠ [] := fun hk => hq ((lowerStr_eq_nil _).mp hk)
  have htr : truthy (some (lowerStr (trimWs raw))) = true := by
    rw [truthy_iff]
    exact ⟨by simp, by simp [hknil]⟩
  have hfind2 : findExistingCompanyIdx s1 (some (lowerStr (trimWs raw))) d.company
      (pyOr d.company.name raw) = some 0 := by
    unfold findExistingCompanyIdx
    rw [if_pos htr, hcomp]
    have hone : findIdxP (fun c => c.name_normalized = some (lowerStr (trimWs raw)))
        [c0] = some 0 := by
      simp [findIdxP, hkey]
    rw [hone]
  have hph2 : companyPhase s1 d raw =
      some (Store.mk
        (updAt (fun _ => updateCompany (getAt s1.companies 0 defaultCompany) d.company
          (some (lowerStr (trimWs raw)))) s1.companies 0)
        s1.employees s1.nextCompanyId s1.nextEmployeeId,
        updateCompany (getAt s1.companies 0 defaultCompany) d.company
          (some (lowerStr (trimWs raw)))) := by
    unfold companyPhase
    dsimp only
    simp only [if_neg hraw]
    rw [hfind2]
  have hgetc : getAt s1.companies 0 defaultCompany = c0 := by
    rw [hcomp]
    rfl
  have hc1id : (updateCompany (getAt s1.companies 0 defaultCompany) d.company
      (some (lowerStr (trimWs raw)))).id = 0 := by
    show (getAt s1.companies 0 defaultCompany).id = 0
    rw [hgetc, hid]
  refine Exists.intro (upsertEmployees (Store.mk
      (updAt (fun _ => updateCompany (getAt s1.companies 0 defaultCompany) d.company
        (some (lowerStr (trimWs raw)))) s1.companies 0)
      s1.employees s1.nextCompanyId s1.nextEmployeeId)
      (updateCompany (getAt s1.companies 0 defaultCompany) d.company
        (some (lowerStr (trimWs raw)))).id d.employees)
    (Exists.intro (updateCompany (getAt s1.companies 0 defaultCompany) d.company
      (some (lowerStr (trimWs raw)))) ?_)
  refine ⟨?_, ?_, ?_⟩
  · unfold upsertCompanyAndEmployees
    rw [hph2]
  · show (upsertEmployees _ _ _).companies.length = 1
    unfold upsertEmployees
    rw [upsertGo_companies]
    show (updAt _ s1.companies 0).length = 1
    rw [updAt_length, hcomp]
    rfl
  · show (upsertEmployees _ _ _).employees.map empProj = _
    unfold upsertEmployees
    rw [hc1id]
    refine upsertGo_update 0 d.employees []
      (Store.mk
        (updAt (fun _ => updateCompany (getAt s1.companies 0 defaultCompany) d.company
          (some (lowerStr (trimWs raw)))) s1.companies 0)
        s1.employees s1.nextCompanyId s1.nextEmployeeId) ?_
    intro dd hdd
    have hmm : ((0 : Nat), fullNameTrim dd) ∈ s1.employees.map empProj := by
      rw [hemp]
      exact List.mem_map_of_mem _ hdd
    obtain ⟨r, hr, hpr⟩ := List.mem_map.mp hmm
    have hpr2 : r.company_id = 0 ∧ r.full_name = fullNameTrim dd := by
      exact ⟨congrArg Prod.fst hpr, congrArg Prod.snd hpr⟩
    refine ⟨r, hr, hpr2.1, ?_⟩
    rw [hpr2.2]

/-- C2.  From an empty store, upserting the same parsed record twice with
the same (non-blank) query leaves exactly one company row and exactly one
employee row per distinct normalized full name; the second call performs
updates only, adding no company and no employee row. -/
theorem claim2_upsert_idempotent (d : ParsedData) (raw : Str) (hq : trimWs raw ≠ []) :
    ∃ s1 c1 s2 c2,
      upsertCompanyAndEmployees emptyStore d raw = some (s1, c1) ∧
      upsertCompanyAndEmployees s1 d raw = some (s2, c2) ∧
      s1.companies.length = 1 ∧ s2.companies.length = 1 ∧
      s2.employees.length = s1.employees.length ∧
      s1.employees.map (fun r => normalizeName r.full_name) = dedupKeys d.employees ∧
      s2.employees.map (fun r => normalizeName r.full_name) = dedupKeys d.employees ∧
      (dedupKeys d.employees).Nodup := by
  obtain ⟨s1, c0, hup1, hcomp, hkey, hid, hemp⟩ := upsert_first_call d raw hq
  obtain ⟨s2, c2, hup2, hlen2, hemp2⟩ := upsert_second_call d raw hq s1 c0 hcomp hkey hid hemp
  have hkeymap : ∀ t : List EmployeeRow,
      t.map empProj = (survivorsFrom [] d.employees).map (fun dd => (0, fullNameTrim dd)) →
      t.map (fun r => normalizeName r.full_name) = dedupKeys d.employees := by
    intro t ht
    have hcompose : t.map (fun r => normalizeName r.full_name) =
        (t.map empProj).map (fun pr => normalizeName pr.2) :=
      (List.map_map (fun pr : Nat × Str => normalizeName pr.2) empProj t).symm
    rw [hcompose, ht, List.map_map]
    rfl
  refine ⟨s1, c0, s2, c2, hup1, hup2, by rw [hcomp]; rfl, hlen2, ?_, ?_, ?_, ?_⟩
  · have := congrArg List.length hemp2
    simpa using this
  · exact hkeymap s1.employees hemp
  · exact hkeymap s2.employees (hemp2.trans hemp)
  · exact (survivors_keys_nodup d.employees []).1

def claim2Data : ParsedData :=
  { company := { name := some (("Acme").toList), industry := some (("Tech").toList),
                 employee_size := PyVal.vInt 3, domain := none, email := none },
    employees := [{ full_name := some (("Jane Doe").toList), title := some (("CEO").toList),
                    department := none, seniority := none, profile_url := none, email := none }] }

/-- C2 witness at a concrete record and query. -/
theorem claim2_witness :
    ∃ s1 c1 s2 c2,
      upsertCompanyAndEmployees emptyStore claim2Data (("Acme").toList) = some (s1, c1) ∧
      upsertCompanyAndEmployees s1 claim2Data (("Acme").toList) = some (s2, c2) ∧
      s1.companies.length = 1 ∧ s2.companies.length = 1 ∧
      s2.employees.length = s1.employees.length ∧
      s1.employees.map (fun r => normalizeName r.full_name) = dedupKeys claim2Data.employees ∧
      s2.employees.map (fun r => normalizeName r.full_name) = dedupKeys claim2Data.employees ∧
      (dedupKeys claim2Data.employees).Nodup :=
  claim2_upsert_idempotent claim2Data (("Acme").toList) (by decide)

/-! Claim 8 machinery.  `hasTriple` detects three consecutive backticks
anywhere in a string; the fence scan never leaves one in its output, which
makes the trailing-fence substitution a no-op on scanned text. -/

def hasTriple : Str → Bool
  | a :: b :: c :: rest => (isTick a && isTick b && isTick c) || hasTriple (b :: c :: rest)
  | _ => false

/-- Length of the leading backtick run. -/
def ticksPre (s : Str) : Nat := (s.takeWhile isTick).length

theorem hasTriple_cons_of (c : Char) (cs : Str) (h : hasTriple cs = true) :
    hasTriple (c :: cs) = true := by
  cases cs with
  | nil => simp [hasTriple] at h
  | cons b cs2 =>
    cases cs2 with
    | nil => simp [hasTriple] at h
    | cons d cs3 => simp only [hasTriple, h, Bool.or_true]

theorem hasTriple_append_of (y z : Str) (h : hasTriple z = true) :
    hasTriple (y ++ z) = true := by
  induction y with
  | nil => simpa using h
  | cons c y' ih => exact hasTriple_cons_of c _ ih

theorem exists_of_reverse_take (x p : Str) (h : x.reverse.take p.length = p) :
    x = (x.reverse.drop p.length).reverse ++ p.reverse := by
  have hx : x.reverse = p ++ x.reverse.drop p.length := by
    conv_lhs => rw [← List.take_append_drop p.length x.reverse, h]
  calc x = x.reverse.reverse := (List.reverse_reverse x).symm
    _ = (p ++ x.reverse.drop p.length).reverse := by rw [← hx]
    _ = (x.reverse.drop p.length).reverse ++ p.reverse := by rw [List.reverse_append]

theorem hasTriple_of_endsTicks (x : Str) (h : x.reverse.take 3 = ticks3) :
    hasTriple x = true := by
  have h3 : x.reverse.take ticks3.length = ticks3 := h
  have hx := exists_of_reverse_take x ticks3 h3
  rw [hx, show ticks3.reverse = ticks3 from rfl]
  exact hasTriple_append_of _ _ (by decide)

theorem hasTriple_of_endsNlTicks (x : Str) (h : x.reverse.take 4 = '\n' :: ticks3) :
    hasTriple x = true := by
  have h4 : x.reverse.take ('\n' :: ticks3).length = '\n' :: ticks3 := h
  have hx := exists_of_reverse_take x ('\n' :: ticks3) h4
  rw [hx, show ('\n' :: ticks3).reverse = ticks3 ++ ['\n'] from rfl]
  exact hasTriple_append_of _ _ (by decide)

theorem subTrailingFence_id (x : Str) (h : hasTriple x = false) :
    subTrailingFence x = x := by
  have hA : ¬ (x.reverse.take 3 = ticks3) := by
    intro hc; rw [hasTriple_of_endsTicks x hc] at h; exact Bool.noConfusion h
  have hB : ¬ (x.reverse.take 4 = '\n' :: ticks3) := by
    intro hc; rw [hasTriple_of_endsNlTicks x hc] at h; exact Bool.noConfusion h
  simp only [subTrailingFence, if_neg hA, if_neg hB]

theorem ticksPre_le_two (A : Str) (h : hasTriple A = false) : ticksPre A ≤ 2 := by
  unfold ticksPre
  cases A with
  | nil => simp
  | cons a A1 =>
    cases ha : isTick a
    · simp [List.takeWhile_cons, ha]
    · cases A1 with
      | nil => simp [List.takeWhile_cons, ha]
      | cons b A2 =>
        cases hb : isTick b
        · simp [List.takeWhile_cons, ha, hb]
        · cases A2 with
          | nil => simp [List.takeWhile_cons, ha, hb]
          | cons c A3 =>
            cases hc : isTick c
            · simp [List.takeWhile_cons, ha, hb, hc]
            · exfalso; simp [hasTriple, ha, hb, hc] at h

theorem ticksPre_ge_two (cs : Str) (h : 2 ≤ ticksPre cs) :
    ∃ e1 e2 cs', cs = e1 :: e2 :: cs' ∧ isTick e1 = true ∧ isTick e2 = true := by
  unfold ticksPre at h
  cases cs with
  | nil => simp at h
  | cons a A1 =>
    cases ha : isTick a
    · simp [List.takeWhile_cons, ha] at h
    · cases A1 with
      | nil => simp [List.takeWhile_cons, ha] at h
      | cons b A2 =>
        cases hb : isTick b
        · simp [List.takeWhile_cons, ha, hb] at h
        · exact ⟨a, b, A2, rfl, ha, hb⟩

theorem scanFence_noTriple_aux : ∀ n : Nat, ∀ x : Str, x.length ≤ n →
    hasTriple (scanFence x) = false ∧ ticksPre (scanFence x) ≤ ticksPre x := by
  intro n
  induction n with
  | zero =>
    intro x hx
    have hx0 : x = [] := List.eq_nil_of_length_eq_zero (Nat.le_zero.mp hx)
    subst hx0
    exact ⟨rfl, Nat.le_refl _⟩
  | succ n ih =>
    intro x hx
    match x with
    | [] => exact ⟨rfl, Nat.le_refl _⟩
    | c :: cs =>
      by_cases ht : tripleHead (c :: cs)
      · cases cs with
        | nil => exact ht.elim
        | cons b cs2 =>
          cases cs2 with
          | nil => exact ht.elim
          | cons d rest =>
            obtain ⟨h1, h2, h3⟩ := ht
            rw [scanFence_triple c b d rest h1 h2 h3]
            have hlen : (dropWsL (dropTag rest)).length ≤ n := by
              have := dropWsDropTagLe rest
              simp only [List.length_cons] at hx
              omega
            obtain ⟨ihA, ihB⟩ := ih _ hlen
            refine ⟨ihA, ?_⟩
            have hle2 := ticksPre_le_two _ ihA
            have h3p : ticksPre (c :: b :: d :: rest) = 3 + ticksPre rest := by
              simp [ticksPre, List.takeWhile_cons, h1, h2, h3]
              omega
            omega
      · rw [scanFence_cons c cs ht]
        have hlen : cs.length ≤ n := by
          simp only [List.length_cons] at hx
          omega
        obtain ⟨ihA, ihB⟩ := ih cs hlen
        constructor
        · rcases hA : scanFence cs with _ | ⟨a1, A1⟩
          · simp [hasTriple]
          · rcases hA1 : A1 with _ | ⟨a2, A2⟩
            · simp [hasTriple]
            · rw [hA, hA1] at ihA ihB
              cases hc : isTick c
              · simp only [hasTriple, hc, Bool.false_and, Bool.false_or]
                exact ihA
              · cases ha1 : isTick a1
                · simp only [hasTriple, hc, ha1, Bool.true_and, Bool.false_and,
                    Bool.false_or]
                  exact ihA
                · cases ha2 : isTick a2
                  · simp only [hasTriple, hc, ha1, ha2, Bool.true_and, Bool.and_false,
                      Bool.false_or]
                    exact ihA
                  · exfalso
                    have h2A : 2 ≤ ticksPre (a1 :: a2 :: A2) := by
                      simp [ticksPre, List.takeWhile_cons, ha1, ha2]
                    have h2cs : 2 ≤ ticksPre cs := Nat.le_trans h2A ihB
                    obtain ⟨e1, e2, cs', hcs, he1, he2⟩ := ticksPre_ge_two cs h2cs
                    subst hcs
                    exact ht ⟨hc, he1, he2⟩
        · cases hc : isTick c
          · simp [ticksPre, List.takeWhile_cons, hc]
          · have hl : ticksPre (c :: scanFence cs) = 1 + ticksPre (scanFence cs) := by
              simp [ticksPre, List.takeWhile_cons, hc]
              omega
            have hr : ticksPre (c :: cs) = 1 + ticksPre cs := by
              simp [ticksPre, List.takeWhile_cons, hc]
              omega
            omega

theorem scanFence_noTriple (x : Str) : hasTriple (scanFence x) = false :=
  (scanFence_noTriple_aux x.length x (Nat.le_refl _)).1

theorem scanFence_subTrailing (x : Str) :
    subTrailingFence (scanFence x) = scanFence x :=
  subTrailingFence_id _ (scanFence_noTriple x)

theorem ws_not_tick (c : Char) (h : isWsChar c = true) : isTick c = false := by
  by_cases hc : c = tick
  · subst hc; exact absurd h (by decide)
  · unfold isTick; exact decide_eq_false hc

theorem not_tripleHead_head (c : Char) (l : Str) (hc : isTick c = false) :
    ¬ tripleHead (c :: l) := by
  intro h
  cases l with
  | nil => exact h
  | cons b l2 =>
    cases l2 with
    | nil => exact h
    | cons d t =>
      obtain ⟨h1, _, _⟩ := h
      rw [hc] at h1
      exact Bool.noConfusion h1

theorem scanFence_ws_append (w x : Str) (hw : ∀ c ∈ w, isWsChar c = true) :
    scanFence (w ++ x) = w ++ scanFence x := by
  induction w with
  | nil => rfl
  | cons c w' ih =>
    have hc : isTick c = false := ws_not_tick c (hw c (List.mem_cons_self c w'))
    have hnt : ¬ tripleHead (c :: (w' ++ x)) := not_tripleHead_head c _ hc
    rw [List.cons_append, scanFence_cons c _ hnt,
      ih (fun d hd => hw d (List.mem_cons_of_mem c hd))]
    rfl

theorem hasTriple_cons_nonTick (c : Char) (z : Str) (hc : isTick c = false) :
    hasTriple (c :: z) = hasTriple z := by
  cases z with
  | nil => rfl
  | cons b z2 =>
    cases z2 with
    | nil => rfl
    | cons d z3 => simp [hasTriple, hc]

theorem hasTriple_ws_append (w A : Str) (hw : ∀ c ∈ w, isWsChar c = true) :
    hasTriple (w ++ A) = hasTriple A := by
  induction w with
  | nil => rfl
  | cons c w' ih =>
    rw [List.cons_append,
      hasTriple_cons_nonTick c _ (ws_not_tick c (hw c (List.mem_cons_self c w'))),
      ih (fun d hd => hw d (List.mem_cons_of_mem c hd))]

theorem hasTriple_append_nonTick (A : Str) (c : Char) (hc : isTick c = false) :
    hasTriple (A ++ [c]) = hasTriple A := by
  induction A with
  | nil => simp [hasTriple]
  | cons a A' ih =>
    cases A' with
    | nil => simp [hasTriple, hc]
    | cons b A2 =>
      cases A2 with
      | nil => simp [hasTriple, hc]
      | cons d A3 =>
        simp only [List.cons_append] at ih ⊢
        simp only [hasTriple]
        rw [ih]

theorem subTrailingFence_append_nl (A : Str) (h : hasTriple A = false) :
    subTrailingFence (A ++ ['\n']) = A ++ ['\n'] := by
  apply subTrailingFence_id
  rw [hasTriple_append_nonTick A '\n' (by decide)]
  exact h

theorem dropWsR_append_ws (x : Str) (c : Char) (hc : isWsChar c = true) :
    dropWsR (x ++ [c]) = dropWsR x := by
  unfold dropWsR
  rw [List.reverse_append, List.reverse_singleton, List.singleton_append,
    List.dropWhile_cons]
  rw [hc]
  rfl

theorem trimWs_ws_append (w x : Str) (hw : ∀ c ∈ w, isWsChar c = true) :
    trimWs (w ++ x) = trimWs x := by
  unfold trimWs dropWsL
  rw [List.dropWhile_append, List.dropWhile_eq_nil_iff.mpr hw]
  rfl

theorem trimWs_append_ws (x : Str) (c : Char) (hc : isWsChar c = true) :
    trimWs (x ++ [c]) = trimWs x := by
  unfold trimWs dropWsL
  rw [List.dropWhile_append]
  rcases hE : x.dropWhile isWsChar with _ | ⟨e, es⟩
  · simp [List.dropWhile_cons, hc]
  · simp only [List.isEmpty_cons, Bool.false_eq_true, if_false]
    exact dropWsR_append_ws _ c hc

theorem startsCI_short (p r : Str) (hr : r.length < p.length) : startsCI p r = false := by
  unfold startsCI
  apply decide_eq_false
  intro heq
  have hl := congrArg List.length heq
  simp only [lowerStr, List.length_map, List.length_take] at hl
  omega

theorem startsCI_append_long (p r z : Str) (hr : p.length ≤ r.length) :
    startsCI p (r ++ z) = startsCI p r := by
  unfold startsCI
  rw [List.take_append_of_le_length hr]

theorem startsCI_append_short (p r z : Str) (hr : r.length < p.length)
    (hz : z[0]? = some '\n') (hp : ('\n' : Char) ∉ p) : startsCI p (r ++ z) = false := by
  unfold startsCI
  apply decide_eq_false
  intro heq
  have hg := congrArg (fun l => l[r.length]?) heq
  simp only [lowerStr, List.getElem?_map, List.getElem?_take] at hg
  rw [if_pos hr, List.getElem?_append_right (Nat.le_refl _), Nat.sub_self, hz] at hg
  rw [show Option.map lowerChar (some '\n') = some '\n' from rfl] at hg
  exact hp (List.getElem?_mem hg.symm)

theorem dropTag_append_nl (r : Str) :
    dropTag (r ++ ('\n' :: ticks3)) = dropTag r ++ ('\n' :: ticks3) := by
  have hz : ('\n' :: ticks3)[0]? = some '\n' := rfl
  have hpj : ('\n' : Char) ∉ jsonTagL := by decide
  have hps : ('\n' : Char) ∉ jsTagL := by decide
  have hpt : ('\n' : Char) ∉ txtTagL := by decide
  have hlj : jsonTagL.length = 4 := rfl
  have hls : jsTagL.length = 2 := rfl
  have hlt : txtTagL.length = 3 := rfl
  by_cases h4 : 4 ≤ r.length
  · unfold dropTag
    rw [startsCI_append_long jsonTagL r _ (by rw [hlj]; omega),
        startsCI_append_long jsTagL r _ (by rw [hls]; omega),
        startsCI_append_long txtTagL r _ (by rw [hlt]; omega)]
    by_cases hj : startsCI jsonTagL r = true
    · rw [if_pos hj, if_pos hj, List.drop_append_of_le_length (by omega)]
    · rw [if_neg hj, if_neg hj]
      by_cases hs : startsCI jsTagL r = true
      · rw [if_pos hs, if_pos hs, List.drop_append_of_le_length (by omega)]
      · rw [if_neg hs, if_neg hs]
        by_cases htx : startsCI txtTagL r = true
        · rw [if_pos htx, if_pos htx, List.drop_append_of_le_length (by omega)]
        · rw [if_neg htx, if_neg htx]
  · have hjF : ¬ (startsCI jsonTagL (r ++ ('\n' :: ticks3)) = true) := by
      rw [startsCI_append_short jsonTagL r _ (by rw [hlj]; omega) hz hpj]
      exact Bool.false_ne_true
    have hjR : ¬ (startsCI jsonTagL r = true) := by
      rw [startsCI_short jsonTagL r (by rw [hlj]; omega)]
      exact Bool.false_ne_true
    unfold dropTag
    rw [if_neg hjF, if_neg hjR]
    by_cases h2 : 2 ≤ r.length
    · rw [startsCI_append_long jsTagL r _ (by rw [hls]; omega)]
      by_cases hs : startsCI jsTagL r = true
      · rw [if_pos hs, if_pos hs, List.drop_append_of_le_length (by omega)]
      · rw [if_neg hs, if_neg hs]
        by_cases h3 : 3 ≤ r.length
        · rw [startsCI_append_long txtTagL r _ (by rw [hlt]; omega)]
          by_cases htx : startsCI txtTagL r = true
          · rw [if_pos htx, if_pos htx, List.drop_append_of_le_length (by omega)]
          · rw [if_neg htx, if_neg htx]
        · have htF : ¬ (startsCI txtTagL (r ++ ('\n' :: ticks3)) = true) := by
            rw [startsCI_append_short txtTagL r _ (by rw [hlt]; omega) hz hpt]
            exact Bool.false_ne_true
          have htR : ¬ (startsCI txtTagL r = true) := by
            rw [startsCI_short txtTagL r (by rw [hlt]; omega)]
            exact Bool.false_ne_true
          rw [if_neg htF, if_neg htR]
    · have hsF : ¬ (startsCI jsTagL (r ++ ('\n' :: ticks3)) = true) := by
        rw [startsCI_append_short jsTagL r _ (by rw [hls]; omega) hz hps]
        exact Bool.false_ne_true
      have hsR : ¬ (startsCI jsTagL r = true) := by
        rw [startsCI_short jsTagL r (by rw [hls]; omega)]
        exact Bool.false_ne_true
      have htF : ¬ (startsCI txtTagL (r ++ ('\n' :: ticks3)) = true) := by
        rw [startsCI_append_short txtTagL r _ (by rw [hlt]; omega) hz hpt]
        exact Bool.false_ne_true
      have htR : ¬ (startsCI txtTagL r = true) := by
        rw [startsCI_short txtTagL r (by rw [hlt]; omega)]
        exact Bool.false_ne_true
      rw [if_neg hsF, if_neg hsR, if_neg htF, if_neg htR]

theorem dropTag_recognized (tag z : Str) (hrec : recognizedTag tag) :
    dropTag (tag ++ '\n' :: z) = '\n' :: z := by
  have hz : ('\n' :: z)[0]? = some '\n' := by simp
  have hpj : ('\n' : Char) ∉ jsonTagL := by decide
  have hps : ('\n' : Char) ∉ jsTagL := by decide
  have hpt : ('\n' : Char) ∉ txtTagL := by decide
  rcases hrec with hj | hs | ht | hnil
  · have hlen : tag.length = 4 := by
      have := congrArg List.length hj
      simpa [lowerStr] using this
    have hcond : startsCI jsonTagL (tag ++ '\n' :: z) = true := by
      rw [startsCI_append_long jsonTagL tag _ (by rw [show jsonTagL.length = 4 from rfl]; omega)]
      unfold startsCI
      rw [show jsonTagL.length = 4 from rfl, ← hlen, List.take_length]
      exact decide_eq_true hj
    unfold dropTag
    rw [if_pos hcond, show (4 : Nat) = tag.length from hlen.symm, List.drop_left]
  · have hlen : tag.length = 2 := by
      have := congrArg List.length hs
      simpa [lowerStr] using this
    have hjF : ¬ (startsCI jsonTagL (tag ++ '\n' :: z) = true) := by
      rw [startsCI_append_short jsonTagL tag _ (by rw [show jsonTagL.length = 4 from rfl]; omega) hz hpj]
      exact Bool.false_ne_true
    have hcond : startsCI jsTagL (tag ++ '\n' :: z) = true := by
      rw [startsCI_append_long jsTagL tag _ (by rw [show jsTagL.length = 2 from rfl]; omega)]
      unfold startsCI
      rw [show jsTagL.length = 2 from rfl, ← hlen, List.take_length]
      exact decide_eq_true hs
    unfold dropTag
    rw [if_neg hjF, if_pos hcond, show (2 : Nat) = tag.length from hlen.symm, List.drop_left]
  · have hlen : tag.length = 3 := by
      have := congrArg List.length ht
      simpa [lowerStr] using this
    have ht' : List.map lowerChar tag = txtTagL := ht
    have hjF : ¬ (startsCI jsonTagL (tag ++ '\n' :: z) = true) := by
      rw [startsCI_append_short jsonTagL tag _ (by rw [show jsonTagL.length = 4 from rfl]; omega) hz hpj]
      exact Bool.false_ne_true
    have hsF : ¬ (startsCI jsTagL (tag ++ '\n' :: z) = true) := by
      rw [startsCI_append_long jsTagL tag _ (by rw [show jsTagL.length = 2 from rfl]; omega)]
      unfold startsCI
      intro hcon
      have hcon2 := of_decide_eq_true hcon
      rw [show jsTagL.length = 2 from rfl, lowerStr, List.map_take, ht'] at hcon2
      exact absurd hcon2 (by decide)
    have hcond : startsCI txtTagL (tag ++ '\n' :: z) = true := by
      rw [startsCI_append_long txtTagL tag _ (by rw [show txtTagL.length = 3 from rfl]; omega)]
      unfold startsCI
      rw [show txtTagL.length = 3 from rfl, ← hlen, List.take_length]
      exact decide_eq_true ht
    unfold dropTag
    rw [if_neg hjF, if_neg hsF, if_pos hcond,
        show (3 : Nat) = tag.length from hlen.symm, List.drop_left]
  · subst hnil
    have hjF : ¬ (startsCI jsonTagL ([] ++ '\n' :: z) = true) := by
      rw [startsCI_append_short jsonTagL [] _ (by decide) hz hpj]
      exact Bool.false_ne_true
    have hsF : ¬ (startsCI jsTagL ([] ++ '\n' :: z) = true) := by
      rw [startsCI_append_short jsTagL [] _ (by decide) hz hps]
      exact Bool.false_ne_true
    have htF : ¬ (startsCI txtTagL ([] ++ '\n' :: z) = true) := by
      rw [startsCI_append_short txtTagL [] _ (by decide) hz hpt]
      exact Bool.false_ne_true
    unfold dropTag
    rw [if_neg hjF, if_neg hsF, if_neg htF]
    rfl

theorem scanFence_append_close_aux : ∀ n : Nat, ∀ x : Str, x.length ≤ n →
    scanFence (x ++ ('\n' :: ticks3)) = scanFence x ∨
    scanFence (x ++ ('\n' :: ticks3)) = scanFence x ++ ['\n'] := by
  intro n
  induction n with
  | zero =>
    intro x hx
    have hx0 : x = [] := List.eq_nil_of_length_eq_zero (Nat.le_zero.mp hx)
    subst hx0
    exact Or.inr (by decide)
  | succ n ih =>
    intro x hx
    match x with
    | [] => exact Or.inr (by decide)
    | c :: cs =>
      by_cases ht : tripleHead (c :: cs)
      · cases cs with
        | nil => exact ht.elim
        | cons b cs2 =>
          cases cs2 with
          | nil => exact ht.elim
          | cons d rest =>
            obtain ⟨h1, h2, h3⟩ := ht
            rw [show (c :: b :: d :: rest) ++ ('\n' :: ticks3)
                  = c :: b :: d :: (rest ++ ('\n' :: ticks3)) from rfl]
            rw [scanFence_triple c b d _ h1 h2 h3, scanFence_triple c b d rest h1 h2 h3]
            rw [dropTag_append_nl]
            rcases hE : dropWsL (dropTag rest) with _ | ⟨e, es⟩
            · have hEm : dropWsL (dropTag rest ++ ('\n' :: ticks3)) = ticks3 := by
                unfold dropWsL at hE ⊢
                rw [List.dropWhile_append, hE]
                rfl
              rw [hEm]
              exact Or.inl (by decide)
            · have hEc : dropWsL (dropTag rest ++ ('\n' :: ticks3))
                  = (e :: es) ++ ('\n' :: ticks3) := by
                unfold dropWsL at hE ⊢
                rw [List.dropWhile_append, hE]
                rfl
              rw [hEc]
              have hle := dropWsDropTagLe rest
              rw [hE] at hle
              apply ih
              simp only [List.length_cons] at hx hle ⊢
              omega
      · have ht2 : ¬ tripleHead (c :: (cs ++ ('\n' :: ticks3))) := by
          intro h
          cases cs with
          | nil =>
            obtain ⟨_, hnl, _⟩ := h
            exact absurd hnl (by decide)
          | cons b cs2 =>
            cases cs2 with
            | nil =>
              obtain ⟨_, _, hnl⟩ := h
              exact absurd hnl (by decide)
            | cons d cs3 =>
              obtain ⟨x1, x2, x3⟩ := h
              exact ht ⟨x1, x2, x3⟩
        rw [show (c :: cs) ++ ('\n' :: ticks3) = c :: (cs ++ ('\n' :: ticks3)) from rfl]
        rw [scanFence_cons _ _ ht2, scanFence_cons _ _ ht]
        have hlen : cs.length ≤ n := by
          simp only [List.length_cons] at hx
          omega
        rcases ih cs hlen with h | h
        · exact Or.inl (by rw [h])
        · exact Or.inr (by rw [h, List.cons_append])

theorem scanFence_append_close (x : Str) :
    scanFence (x ++ ('\n' :: ticks3)) = scanFence x ∨
    scanFence (x ++ ('\n' :: ticks3)) = scanFence x ++ ['\n'] :=
  scanFence_append_close_aux x.length x (Nat.le_refl _)

theorem stripCodeFences_fenceWrap (tag j : Str) (hrec : recognizedTag tag) :
    stripCodeFences (fenceWrap tag j) = stripCodeFences j := by
  have hfw : fenceWrap tag j ≠ [] := by
    rw [show fenceWrap tag j
          = tick :: tick :: tick :: (tag ++ '\n' :: (j ++ '\n' :: ticks3)) from rfl]
    exact List.cons_ne_nil _ _
  have hscan : scanFence (fenceWrap tag j)
      = scanFence (dropWsL (dropTag (tag ++ '\n' :: (j ++ '\n' :: ticks3)))) := by
    rw [show fenceWrap tag j
          = tick :: tick :: tick :: (tag ++ '\n' :: (j ++ '\n' :: ticks3)) from rfl]
    exact scanFence_triple _ _ _ _ (by decide) (by decide) (by decide)
  rw [dropTag_recognized tag _ hrec] at hscan
  have hdw : dropWsL ('\n' :: (j ++ '\n' :: ticks3)) = dropWsL (j ++ '\n' :: ticks3) := by
    unfold dropWsL
    rw [List.dropWhile_cons, if_pos (show isWsChar '\n' = true from rfl)]
  rw [hdw] at hscan
  rcases hE : dropWsL j with _ | ⟨e, es⟩
  · have hE2 : List.dropWhile isWsChar j = [] := hE
    have hws : ∀ c ∈ j, isWsChar c = true := List.dropWhile_eq_nil_iff.mp hE2
    have hj2 : dropWsL (j ++ '\n' :: ticks3) = ticks3 := by
      unfold dropWsL
      rw [List.dropWhile_append, hE2]
      rfl
    rw [hj2] at hscan
    have hscan2 : scanFence (fenceWrap tag j) = [] := by
      rw [hscan]
      decide
    have hL : stripCodeFences (fenceWrap tag j) = [] := by
      unfold stripCodeFences
      rw [if_neg hfw, hscan2]
      rfl
    have hR : stripCodeFences j = [] := by
      by_cases hj : j = []
      · rw [hj]
        rfl
      · unfold stripCodeFences
        rw [if_neg hj]
        have hsj : scanFence j = j := by
          have h2 := scanFence_ws_append j [] hws
          rw [List.append_nil, scanFence_nil, List.append_nil] at h2
          exact h2
        have hnt : hasTriple j = false := by
          have h3 := hasTriple_ws_append j [] hws
          rw [List.append_nil, show hasTriple ([] : Str) = false from rfl] at h3
          exact h3
        rw [hsj, subTrailingFence_id j hnt]
        unfold trimWs
        rw [hE]
        rfl
    rw [hL, hR]
  · have hE2 : List.dropWhile isWsChar j = e :: es := hE
    have hj : j ≠ [] := by
      intro hnil
      rw [hnil] at hE2
      exact List.noConfusion hE2
    have hj2 : dropWsL (j ++ '\n' :: ticks3) = (e :: es) ++ '\n' :: ticks3 := by
      unfold dropWsL
      rw [List.dropWhile_append, hE2]
      rfl
    rw [hj2] at hscan
    have hsplit : j.takeWhile isWsChar ++ (e :: es) = j := by
      conv_rhs => rw [← List.takeWhile_append_dropWhile isWsChar j]
      rw [hE2]
    have hwsw : ∀ c ∈ j.takeWhile isWsChar, isWsChar c = true :=
      fun c hc => List.mem_takeWhile_imp hc
    have hsj : scanFence j = j.takeWhile isWsChar ++ scanFence (e :: es) := by
      conv_lhs => rw [← hsplit]
      exact scanFence_ws_append _ _ hwsw
    have hA := scanFence_noTriple (e :: es)
    have hR : stripCodeFences j = trimWs (scanFence (e :: es)) := by
      unfold stripCodeFences
      rw [if_neg hj, hsj]
      rw [subTrailingFence_id _ (by rw [hasTriple_ws_append _ _ hwsw]; exact hA)]
      exact trimWs_ws_append _ _ hwsw
    rcases scanFence_append_close (e :: es) with hD | hD
    · have hL : stripCodeFences (fenceWrap tag j) = trimWs (scanFence (e :: es)) := by
        unfold stripCodeFences
        rw [if_neg hfw, hscan, hD, subTrailingFence_id _ hA]
      rw [hL, hR]
    · have hL : stripCodeFences (fenceWrap tag j) = trimWs (scanFence (e :: es)) := by
        unfold stripCodeFences
        rw [if_neg hfw, hscan, hD, subTrailingFence_append_nl _ hA]
        exact trimWs_append_ws _ '\n' (by decide)
      rw [hL, hR]

/-- Fence tag of the C8 counterexample: `python` is a legitimate markdown
language tag that the `strip_code_fences` regex does not recognize. -/
def claim8Tag : Str := ("python").toList

/-- Payload of the C8 counterexample: a valid JSON object whose string value
contains an opening brace. -/
def claim8Json : Str := ("\x7b\"a\":\"\x7b\"\x7d").toList

def claim8Members : List (Str × Json) := [(('a' :: []), Json.jstr ('\x7b' :: []))]

/-- C8 counterexample: for the fence tag `python`, a valid JSON object text
does NOT survive the fence round trip.  The scan leaves the unrecognized tag
in place, stage 1 fails, and the stage-2 brace-depth fallback miscounts the
brace inside the string value, so the fenced text parses to `none` while the
bare text parses to the object. -/
theorem claim8_counterexample :
    jsonLoads claim8Json = some (Json.jobj claim8Members) ∧
    safeJsonParse claim8Json = some claim8Members ∧
    safeJsonParse (fenceWrap claim8Tag claim8Json) = none ∧
    safeJsonParse (fenceWrap claim8Tag claim8Json) ≠ safeJsonParse claim8Json := by
  refine ⟨rfl, rfl, rfl, ?_⟩
  intro h
  rw [show safeJsonParse (fenceWrap claim8Tag claim8Json) = none from rfl,
      show safeJsonParse claim8Json = some claim8Members from rfl] at h
  exact Option.noConfusion h

/-- C8 (amended): for the language tags the `strip_code_fences` regex
recognizes (`json`, `js`, `txt` case-insensitively, or no tag at all),
wrapping any payload in markdown code fences never changes the result of
`safe_json_parse`; and the parser's first stage accepts the fence-stripped
text only when its top-level value is a JSON object. -/
theorem claim8_amended_fenced_round_trip (tag j t : Str) (v : Json)
    (hrec : recognizedTag tag)
    (hload : jsonLoads (stripCodeFences t) = some v) (hv : isJObj v = false) :
    safeJsonParse (fenceWrap tag j) = safeJsonParse j ∧
    stage1Parse (stripCodeFences t) = none := by
  constructor
  · have hfw : fenceWrap tag j ≠ [] := by
      rw [show fenceWrap tag j
            = tick :: tick :: tick :: (tag ++ '\n' :: (j ++ '\n' :: ticks3)) from rfl]
      exact List.cons_ne_nil _ _
    have hs := stripCodeFences_fenceWrap tag j hrec
    by_cases hj : j = []
    · subst hj
      unfold safeJsonParse
      rw [if_neg hfw, if_pos rfl, hs]
      rfl
    · unfold safeJsonParse
      rw [if_neg hfw, if_neg hj, hs]
  · unfold stage1Parse
    rw [hload]
    cases v with
    | jnull => rfl
    | jbool b => rfl
    | jnum s => rfl
    | jstr s => rfl
    | jarr l => rfl
    | jobj m => simp [isJObj] at hv

/-- C8 amended witness: the `json` tag with payload `\x7b\x7d`, and the
non-object probe text `[1]` for the stage-1 clause. -/
theorem claim8_amended_witness :
    safeJsonParse (fenceWrap (("json").toList) (("\x7b\x7d").toList))
      = safeJsonParse (("\x7b\x7d").toList) ∧
    stage1Parse (stripCodeFences (("[1]").toList)) = none :=
  claim8_amended_fenced_round_trip (("json").toList) (("\x7b\x7d").toList)
    (("[1]").toList) (Json.jarr [Json.jnum ('1' :: [])])
    (Or.inl (by decide)) (by rfl) (by rfl)

end CompanyResearch
